import Mathlib

/-!
# htmlq: a shallow embedding of the node-set wrapper

The Go package `htmlq` wraps a slice of `*html.Node` and offers `Find`, `Val`,
`Attr`, `Text`, `Len`, `Index` and `ForEach` over it.

Modelling decisions.

* A `*html.Node` held in a node set is an address (`Addr`); the memory of the
  parsed tree is a `Heap`, a total map from addresses to node records, so that
  two references are the same node exactly when the addresses are equal and a
  write through one reference is seen through every other one.
* The tree links `FirstChild` and `NextSibling` are nullable (`Option Addr`),
  as the code tests them against `nil`.
* A Go `int` argument is an `Int`; `len` of a slice is a `Nat`.
* A Go `string` is a `String`, and so is a `[]byte` chunk handed to
  `stringWriter.Write`, which converts it to a string at once.
* A slice is a `List`; the `nil` slice is the empty list.
* A Go panic is `Except.error (Fault.panic _)`.  The child walk of `Text`
  follows `NextSibling` links through the heap and is given fuel; running out
  of fuel is `Fault.outOfFuel`.
* The parser, the selector engine and the renderer are external packages and
  are parameters of the operations that call them.
* What a call leaves alone is stated on a memory with the backing arrays of
  the slices explicit: `Mem` for the node list of a receiver, `TreeMem` for the
  attribute slices of the nodes, which two nodes may share.  The list-level
  definitions are what these memories denote.
-/

namespace Htmlq

/-- An address of a node of the parsed tree: the value of a non-nil `*html.Node`. -/
abbrev Addr := Nat

/-- The kinds of node of `html.NodeType`. -/
inductive NodeType where
  | ErrorNode
  | TextNode
  | DocumentNode
  | ElementNode
  | CommentNode
  | DoctypeNode
  deriving DecidableEq, Repr

/-- One attribute of an element, `html.Attribute`. -/
structure Attribute where
  Namespace : String
  Key : String
  Val : String
  deriving DecidableEq, Repr

/-- The fields of `html.Node` that the package reads or writes; `Type_` is the
field `Type`. -/
structure Node where
  FirstChild : Option Addr
  NextSibling : Option Addr
  Type_ : NodeType
  Data : String
  Attr : List Attribute
  deriving DecidableEq, Repr

/-- The memory holding the parsed tree. -/
abbrev Heap := Addr → Node

/-- How a call can end other than by returning. -/
inductive Fault where
  | panic (msg : String)
  | outOfFuel
  deriving DecidableEq, Repr

deriving instance DecidableEq for Except

/-- The wrapper `HtmlQ`: an ordered list of node references. -/
structure HtmlQ where
  nodes : List Addr
  deriving DecidableEq, Repr

/-- A compiled selector, seen through its `MatchAll` method. -/
abbrev Selector := Addr → List Addr

/-- The selector compiler `cascadia.Compile`: a matcher or an error text. -/
abbrev Compiler := String → Except String Selector

/-! ## Find -/

/-- The innermost loop of `Find`: is `newNode` one of the nodes of `workingSet`? -/
def alreadyInSet (newNode : Addr) : List Addr → Bool
  | [] => false
  | oldNode :: rest => if oldNode = newNode then true else alreadyInSet newNode rest

/-- The middle loop of `Find`: append each new node that is not yet in the working set. -/
def addNewNodes (workingSet : List Addr) : List Addr → List Addr
  | [] => workingSet
  | newNode :: rest =>
    if alreadyInSet newNode workingSet then addNewNodes workingSet rest
    else addNewNodes (workingSet ++ [newNode]) rest

/-- The outer loop of `Find` over the nodes of the receiver. -/
def findLoop (s : Selector) (workingSet : List Addr) : List Addr → List Addr
  | [] => workingSet
  | node :: rest => findLoop s (addNewNodes workingSet (s node)) rest

/-- The method `HtmlQ.Find`: panics when the selector does not compile. -/
def HtmlQ.Find (compile : Compiler) (hq : HtmlQ) (sel : String) : Except Fault HtmlQ :=
  match compile sel with
  | .error er => .error (.panic er)
  | .ok s => .ok { nodes := findLoop s [] hq.nodes }

/-- What the specification says `Find` computes from a sequence of discovered
nodes: the sequence with only the first occurrence of each node kept. -/
def keepFirst : List Addr → List Addr
  | [] => []
  | n :: rest => n :: (keepFirst rest).filter (fun m => m ≠ n)

/-- The nodes discovered by scanning the receiver in set order. -/
def discovered (s : Selector) (nodes : List Addr) : List Addr :=
  (nodes.map s).flatten

/-! ## Val and Attr -/

/-- The function `isValueNode`: an element whose tag is `input`, `textarea` or `select`. -/
def isValueNode (node : Node) : Bool :=
  if node.Type_ ≠ NodeType.ElementNode then false
  else if node.Data = "input" then true
  else if node.Data = "textarea" then true
  else if node.Data = "select" then true
  else false

/-- The loop of `getAttr` over the attribute slice of a node. -/
def getAttrLoop (key : String) : List Attribute → String
  | [] => ""
  | attr :: rest => if attr.Key = key then attr.Val else getAttrLoop key rest

/-- The function `getAttr`, reading the node at `node` in the heap. -/
def getAttr (h : Heap) (node : Addr) (key : String) : String :=
  getAttrLoop key (h node).Attr

/-- The loop of `setAttr`: overwrite the value of the first attribute with the
key, or report that there is none. -/
def setAttrLoop (key val : String) : List Attribute → Option (List Attribute)
  | [] => none
  | attr :: rest =>
    if attr.Key = key then some ({ attr with Val := val } :: rest)
    else (setAttrLoop key val rest).map (fun rest' => attr :: rest')

/-- The attribute slice of a node after `setAttr`: updated in place, or with a
new attribute appended. -/
def setAttrList (key val : String) (attrs : List Attribute) : List Attribute :=
  match setAttrLoop key val attrs with
  | some attrs' => attrs'
  | none => attrs ++ [{ Namespace := "", Key := key, Val := val }]

/-- The function `setAttr` on the tree as lists: the node at `node` gets the
attribute list the call leaves in its slice.  This is what the node itself
reads after the call, whatever arrays are shared (`setAttrMem_heap_target`);
what a node sharing the backing array reads is settled on `setAttrMem`. -/
def setAttr (h : Heap) (node : Addr) (key val : String) : Heap :=
  Function.update h node { h node with Attr := setAttrList key val (h node).Attr }

/-- The loop of `HtmlQ.setVal` over the nodes of the receiver. -/
def setValLoop (h : Heap) (val : String) : List Addr → Heap
  | [] => h
  | node :: rest =>
    if isValueNode (h node) then setAttr h node "value" val
    else setValLoop h val rest

/-- The method `HtmlQ.setVal`. -/
def HtmlQ.setVal (h : Heap) (hq : HtmlQ) (val : String) : Heap :=
  setValLoop h val hq.nodes

/-- The loop of `HtmlQ.getVal` over the nodes of the receiver. -/
def getValLoop (h : Heap) : List Addr → String
  | [] => ""
  | node :: rest =>
    if isValueNode (h node) then getAttr h node "value"
    else getValLoop h rest

/-- The method `HtmlQ.getVal`. -/
def HtmlQ.getVal (h : Heap) (hq : HtmlQ) : String :=
  getValLoop h hq.nodes

/-- The method `HtmlQ.Val`: the returned string and the heap after the call. -/
def HtmlQ.Val (h : Heap) (hq : HtmlQ) (args : List String) : String × Heap :=
  match args with
  | [] => (hq.getVal h, h)
  | arg0 :: _ => ("", hq.setVal h arg0)

/-- The loop of `HtmlQ.Attr` over the nodes of the receiver, entered with at
least one argument. -/
def attrLoop (h : Heap) (args : List String) : List Addr → String × Heap
  | [] => ("", h)
  | node :: rest =>
    if (h node).Type_ ≠ NodeType.ElementNode then attrLoop h args rest
    else
      match args with
      | [arg0] => (getAttr h node arg0, h)
      | [arg0, arg1] => ("", setAttr h node arg0 arg1)
      | _ => attrLoop h args rest

/-- The method `HtmlQ.Attr`: panics without arguments, otherwise the returned
string and the heap after the call. -/
def HtmlQ.Attr (h : Heap) (hq : HtmlQ) (args : List String) : Except Fault (String × Heap) :=
  if args.length = 0 then .error (.panic "Attr needs 1 or 2 arguments")
  else .ok (attrLoop h args hq.nodes)

/-! ## Text -/

/-- The accumulation sink `stringWriter`. -/
structure stringWriter where
  s : String
  deriving DecidableEq, Repr

/-- The method `stringWriter.Write`: append the chunk, report its length and no error. -/
def stringWriter.Write (sw : stringWriter) (bs : String) : stringWriter × Nat × Option String :=
  ({ s := sw.s ++ bs }, bs.utf8ByteSize, none)

/-- The method `stringWriter.String`. -/
def stringWriter.String (sw : stringWriter) : String :=
  sw.s

/-- The renderer `html.Render`, seen from its caller: on the node at an address
it either fails with an error text or hands a sequence of chunks to the
`Write` method of the sink. -/
abbrev Renderer := Heap → Addr → Except String (List String)

/-- The writes one successful `html.Render` call makes into the sink. -/
def writeAll (work : stringWriter) : List String → stringWriter
  | [] => work
  | bs :: rest => writeAll (work.Write bs).1 rest

/-- The indexing expression `hq.nodes[idx]` of Go: out of range panics. -/
def sliceIndex (nodes : List Addr) (idx : Int) : Except Fault Addr :=
  if idx < 0 then .error (.panic "index out of range")
  else
    match nodes.get? idx.toNat with
    | some node => .ok node
    | none => .error (.panic "index out of range")

/-- The child walk of `HtmlQ.Text`: from `child`, render and follow
`NextSibling` until `nil`. -/
def textLoop (render : Renderer) (h : Heap) : Nat → Option Addr → stringWriter → Except Fault stringWriter
  | _, none, work => .ok work
  | 0, some _, _ => .error .outOfFuel
  | fuel + 1, some child, work =>
    match render h child with
    | .error er => .error (.panic er)
    | .ok chunks => textLoop render h fuel (h child).NextSibling (writeAll work chunks)

/-- The method `HtmlQ.Text`. -/
def HtmlQ.Text (render : Renderer) (h : Heap) (fuel : Nat) (hq : HtmlQ) (args : List Int) :
    Except Fault String :=
  let idx : Int := match args with
    | [] => 0
    | arg0 :: _ => arg0
  if (hq.nodes.length : Int) ≤ idx then .ok ""
  else
    match sliceIndex hq.nodes idx with
    | .error e => .error e
    | .ok node =>
      match textLoop render h fuel (h node).FirstChild { s := "" } with
      | .error e => .error e
      | .ok work => .ok work.String

/-! ## Len, Node, Index, ForEach -/

/-- The method `HtmlQ.Len`. -/
def HtmlQ.Len (hq : HtmlQ) : Nat :=
  hq.nodes.length

/-- The method `HtmlQ.Node`: the first node, or `nil`. -/
def HtmlQ.Node (hq : HtmlQ) : Option Addr :=
  match hq.nodes with
  | [] => none
  | node :: _ => some node

/-- The method `HtmlQ.Index`. -/
def HtmlQ.Index (hq : HtmlQ) (idx : Int) : Except Fault HtmlQ :=
  if (hq.nodes.length : Int) ≤ idx then .ok { nodes := [] }
  else
    match sliceIndex hq.nodes idx with
    | .error e => .error e
    | .ok node => .ok { nodes := [node] }

/-- The loop of `HtmlQ.ForEach`.  The visitor is a Go closure: it is given the
node set and the state of the caller it closes over, and it returns the new
state or panics. -/
def forEachLoop {σ : Type} (f : HtmlQ → σ → Except Fault σ) : List Addr → σ → Except Fault σ
  | [], st => .ok st
  | node :: rest, st =>
    match f { nodes := [node] } st with
    | .error e => .error e
    | .ok st' => forEachLoop f rest st'

/-- The method `HtmlQ.ForEach`: the returned node set and the state of the
caller after the calls. -/
def HtmlQ.ForEach {σ : Type} (hq : HtmlQ) (f : HtmlQ → σ → Except Fault σ) (st : σ) :
    Except Fault (HtmlQ × σ) :=
  match forEachLoop f hq.nodes st with
  | .error e => .error e
  | .ok st' => .ok (hq, st')

/-! ## The specification side of Text -/

/-- The direct children of a node, left to right: the nodes reached from its
`FirstChild` link along `NextSibling` links until `nil`. -/
inductive Siblings (h : Heap) : Option Addr → List Addr → Prop where
  | done : Siblings h none []
  | next (child : Addr) (rest : List Addr) :
      Siblings h (h child).NextSibling rest → Siblings h (some child) (child :: rest)

/-- The markup the renderer produces for one node: its chunks in the order written. -/
def markup (render : Renderer) (h : Heap) (node : Addr) : String :=
  match render h node with
  | .ok chunks => String.join chunks
  | .error _ => ""

/-- The inner markup of a node with the children `children`: the markup of each
child, concatenated in child order. -/
def innerMarkup (render : Renderer) (h : Heap) (children : List Addr) : String :=
  String.join (children.map (markup render h))

/-- The visitor of the test `Test1`: append `hq.Text()` to the list `found`. -/
def collectText (render : Renderer) (h : Heap) (fuel : Nat) (hq : HtmlQ) (found : List String) :
    Except Fault (List String) :=
  match hq.Text render h fuel [] with
  | .error e => .error e
  | .ok text => .ok (found ++ [text])

/-! ## The specification side of Val and Attr -/

/-- The first node of a list, in order, that is an element. -/
def firstElement (h : Heap) (nodes : List Addr) : Option Addr :=
  nodes.find? (fun n => decide ((h n).Type_ = NodeType.ElementNode))

/-- The first node of a list, in order, that is an element with the tag
`input`, `textarea` or `select`. -/
def firstValueNode (h : Heap) (nodes : List Addr) : Option Addr :=
  nodes.find? (fun n => decide ((h n).Type_ = NodeType.ElementNode ∧
    ((h n).Data = "input" ∨ (h n).Data = "textarea" ∨ (h n).Data = "select")))

/-- The value of the first attribute with the key `key`, or the empty string
when there is none. -/
def attrValue (key : String) (attrs : List Attribute) : String :=
  match attrs.find? (fun a => decide (a.Key = key)) with
  | some a => a.Val
  | none => ""

/-! ## Sample data for the closed statements -/

/-- A node without links and attributes. -/
def leaf (type : NodeType) (data : String) : Node :=
  { FirstChild := none, NextSibling := none, Type_ := type, Data := data, Attr := [] }

/-- The tree the parser builds for the document of `Test1`: the document node 0
with the doctype 1 and the element `html` 2, whose children are `head` 3 and
`body` 4; the children of `body` are the elements 5, 7, 9, 11 with the text
nodes 6, 8, 10, 12 below them. -/
def testDocument : Heap := fun a =>
  match a with
  | 0 => { leaf .DocumentNode "" with FirstChild := some 1 }
  | 1 => { leaf .DoctypeNode "html" with NextSibling := some 2 }
  | 2 => { leaf .ElementNode "html" with FirstChild := some 3 }
  | 3 => { leaf .ElementNode "head" with NextSibling := some 4 }
  | 4 => { leaf .ElementNode "body" with FirstChild := some 5 }
  | 5 => { leaf .ElementNode "span" with
            FirstChild := some 6, NextSibling := some 7,
            Attr := [{ Namespace := "", Key := "class", Val := "post-id" }] }
  | 6 => leaf .TextNode "102"
  | 7 => { leaf .ElementNode "div" with
            FirstChild := some 8, NextSibling := some 9,
            Attr := [{ Namespace := "", Key := "class", Val := "msg" }] }
  | 8 => leaf .TextNode "Hello"
  | 9 => { leaf .ElementNode "span" with
            FirstChild := some 10, NextSibling := some 11,
            Attr := [{ Namespace := "", Key := "class", Val := "post-id" }] }
  | 10 => leaf .TextNode "103"
  | 11 => { leaf .ElementNode "div" with
            FirstChild := some 12,
            Attr := [{ Namespace := "", Key := "class", Val := "msg" }] }
  | 12 => leaf .TextNode "There"
  | _ => leaf .ErrorNode ""

/-- The two `span.post-id` nodes of the test document, in document order. -/
def postIds : HtmlQ := { nodes := [5, 9] }

/-- The children of the nodes of `postIds`. -/
def postIdChildren : Addr → List Addr := fun node =>
  match node with
  | 5 => [6]
  | 9 => [10]
  | _ => []

/-- What `html.Render` does on a text node whose text needs no escaping (it
writes the text) and on a comment node (it writes the opening mark, the
comment and the closing mark).  Other kinds of node are refused, as
`html.Render` refuses an `ErrorNode`. -/
def textRender : Renderer := fun h node =>
  match (h node).Type_ with
  | .TextNode => .ok [(h node).Data]
  | .CommentNode => .ok ["<!--", (h node).Data, "-->"]
  | _ => .error "html: cannot render this node"

/-- A paragraph with mixed content: the element `p` 0 with the children text
`a` 1, comment `c` 2 and text `b` 3. -/
def mixedHeap : Heap := fun a =>
  match a with
  | 0 => { leaf .ElementNode "p" with FirstChild := some 1 }
  | 1 => { leaf .TextNode "a" with NextSibling := some 2 }
  | 2 => { leaf .CommentNode "c" with NextSibling := some 3 }
  | 3 => leaf .TextNode "b"
  | _ => leaf .ErrorNode ""

/-- A form fragment: the text node 0, the element `div` 1, the element
`input` 2 with `type="text" value="x"`, and the element `textarea` 3 without
attributes. -/
def formHeap : Heap := fun a =>
  match a with
  | 0 => leaf .TextNode "name: "
  | 1 => { leaf .ElementNode "div" with
            Attr := [{ Namespace := "", Key := "id", Val := "box" }] }
  | 2 => { leaf .ElementNode "input" with
            Attr := [{ Namespace := "", Key := "type", Val := "text" },
                     { Namespace := "", Key := "value", Val := "x" }] }
  | 3 => leaf .ElementNode "textarea"
  | _ => leaf .ErrorNode ""

/-- A matcher on a small tree: node 0 has the descendants 1, 2, 3 that match,
node 1 has the descendants 2, 3 that match, and the engine reports 3 twice. -/
def overlapMatcher : Selector := fun node =>
  match node with
  | 0 => [1, 2, 3]
  | 1 => [3, 2, 3]
  | _ => []

/-- A compiler that accepts the selector text `"p"` only. -/
def sampleCompile : Compiler := fun sel =>
  if sel = "p" then .ok overlapMatcher else .error "bad selector"

/-! ## ParseString and ParseReader -/

/-- An `io.Reader` seen from `html.Parse`: the text it delivers, or the error
its `Read` reports. -/
abbrev Reader := Except String String

/-- The constructor `strings.NewReader`: a reader that delivers the string. -/
def NewReader (str : String) : Reader :=
  .ok str

/-- The parser `html.Parse`: from the tree memory and a reader, the root node
of the new tree with the memory holding it, or an error. -/
abbrev Parser := Heap → Reader → Except String (Addr × Heap)

/-- The method `HtmlQ.ParseReader` on the receiver `hq`: the returned error
(`none` is `nil`), the receiver after the call and the tree memory after it. -/
def HtmlQ.ParseReader (parse : Parser) (h : Heap) (hq : HtmlQ) (r : Reader) :
    Option String × HtmlQ × Heap :=
  match parse h r with
  | .error er => (some er, hq, h)
  | .ok (rootNode, h') => (none, { nodes := [rootNode] }, h')

/-- The method `HtmlQ.ParseString`. -/
def HtmlQ.ParseString (parse : Parser) (h : Heap) (hq : HtmlQ) (str : String) :
    Option String × HtmlQ × Heap :=
  hq.ParseReader parse h (NewReader str)

/-- A parser for the closed statements: it passes a read error on, refuses the
empty text, and otherwise builds the tree of `Test1` with the document node 0
as root. -/
def sampleParse : Parser := fun _ r =>
  match r with
  | .error er => .error er
  | .ok text => if text = "" then .error "empty document" else .ok (0, testDocument)

/-- A list item before a form field: the element `li` 0 with `value="3"` and
the element `input` 1 with `value="x"`. -/
def listHeap : Heap := fun a =>
  match a with
  | 0 => { leaf .ElementNode "li" with
            Attr := [{ Namespace := "", Key := "value", Val := "3" }] }
  | 1 => { leaf .ElementNode "input" with
            Attr := [{ Namespace := "", Key := "value", Val := "x" }] }
  | _ => leaf .ErrorNode ""

/-! ## Find and Index with the slice memory explicit

To state that a method leaves its receiver as it was, the node list of a
receiver is read here from a memory of backing arrays: a slice is a header
(array, length, capacity), `append` writes into the spare capacity of its
array or moves to a new array, and a composite literal takes a new array. -/

/-- A Go slice header over an array of node references. -/
structure Slice where
  arr : Nat
  len : Nat
  cap : Nat
  deriving DecidableEq, Repr

/-- The memory of backing arrays: the cells of each array, and the number
`next` of arrays allocated so far (the arrays `0 .. next - 1`). -/
structure Mem where
  cells : Nat → Nat → Addr
  next : Nat

/-- The cells `i, i + 1, .., i + k - 1` of an array. -/
def readFrom (cells : Nat → Addr) : Nat → Nat → List Addr
  | _, 0 => []
  | i, k + 1 => cells i :: readFrom cells (i + 1) k

/-- The node list a slice header denotes in a memory. -/
def Mem.read (m : Mem) (sl : Slice) : List Addr :=
  readFrom (m.cells sl.arr) 0 sl.len

/-- The nil slice, and the empty literal `[]*html.Node{}`: no cells, no capacity. -/
def emptySlice : Slice :=
  { arr := 0, len := 0, cap := 0 }

/-- The builtin `append(sl, x)`: with spare capacity the cell behind the last
one is written; otherwise the cells are copied into a new array, whose capacity
the runtime chooses (`grow` is what it adds beyond the needed `len + 1`). -/
def appendSlice (grow : Nat → Nat) (m : Mem) (sl : Slice) (x : Addr) : Mem × Slice :=
  if sl.len < sl.cap then
    ({ m with cells := Function.update m.cells sl.arr (Function.update (m.cells sl.arr) sl.len x) },
     { sl with len := sl.len + 1 })
  else
    ({ cells := Function.update m.cells m.next
          (fun i => if i < sl.len then m.cells sl.arr i else x),
       next := m.next + 1 },
     { arr := m.next, len := sl.len + 1, cap := sl.len + 1 + grow sl.cap })

/-- The middle loop of `Find` on the memory: the working set is a slice. -/
def addNewNodesMem (grow : Nat → Nat) (m : Mem) (workingSet : Slice) : List Addr → Mem × Slice
  | [] => (m, workingSet)
  | newNode :: rest =>
    if alreadyInSet newNode (m.read workingSet) then addNewNodesMem grow m workingSet rest
    else
      addNewNodesMem grow (appendSlice grow m workingSet newNode).1
        (appendSlice grow m workingSet newNode).2 rest

/-- The outer loop of `Find` on the memory: `range hq.nodes` fixes the length
at the start and reads the cell `i` of the receiver in the `i`-th round, from
the memory as it is then; `k` rounds remain. -/
def findLoopMem (grow : Nat → Nat) (s : Selector) (hq : Slice) :
    Nat → Nat → Mem → Slice → Mem × Slice
  | 0, _, m, workingSet => (m, workingSet)
  | k + 1, i, m, workingSet =>
    findLoopMem grow s hq k (i + 1)
      (addNewNodesMem grow m workingSet (s (m.cells hq.arr i))).1
      (addNewNodesMem grow m workingSet (s (m.cells hq.arr i))).2

/-- The method `HtmlQ.Find` on the memory: the memory after the call and the
slice of the returned node set. -/
def FindMem (compile : Compiler) (grow : Nat → Nat) (m : Mem) (hq : Slice) (sel : String) :
    Except Fault (Mem × Slice) :=
  match compile sel with
  | .error er => .error (.panic er)
  | .ok s => .ok (findLoopMem grow s hq hq.len 0 m emptySlice)

/-- The literal `[]*html.Node{x}`: a new array of one cell. -/
def literalOne (m : Mem) (x : Addr) : Mem × Slice :=
  ({ cells := Function.update m.cells m.next (fun _ => x), next := m.next + 1 },
   { arr := m.next, len := 1, cap := 1 })

/-- The method `HtmlQ.Index` on the memory. -/
def IndexMem (m : Mem) (hq : Slice) (idx : Int) : Except Fault (Mem × Slice) :=
  if (hq.len : Int) ≤ idx then .ok (m, emptySlice)
  else if idx < 0 then .error (.panic "index out of range")
  else .ok (literalOne m (m.cells hq.arr idx.toNat))

/-- A memory with one array, `[0, 1, 0]`, for the closed statements. -/
def sampleMem : Mem :=
  { cells := fun a i => if a = 0 then (if i = 0 then 0 else if i = 1 then 1 else 0) else 0,
    next := 1 }

/-- The receiver `[0, 1, 0]` in `sampleMem`. -/
def sampleSlice : Slice :=
  { arr := 0, len := 3, cap := 3 }

/-- The state of the memory during `Find`, against the memory `m0` at the
call: no array has been freed, the arrays of `m0` hold what they held, and the
working set, once it has capacity, lives in an array allocated since. -/
def FrameInv (m0 m : Mem) (workingSet : Slice) : Prop :=
  m0.next ≤ m.next ∧
  (∀ a, a < m0.next → m.cells a = m0.cells a) ∧
  workingSet.len ≤ workingSet.cap ∧
  (workingSet.cap = 0 ∨ (m0.next ≤ workingSet.arr ∧ workingSet.arr < m.next))

/-! ## Text against the text of the descendants -/

/-- The text of the text nodes met from `link` on, along the siblings and
below them, in document order (with fuel for the walk). -/
def textFrom (h : Heap) : Nat → Option Addr → String
  | 0, _ => ""
  | _ + 1, none => ""
  | fuel + 1, some node =>
    (if (h node).Type_ = NodeType.TextNode then (h node).Data
     else textFrom h fuel (h node).FirstChild) ++ textFrom h fuel (h node).NextSibling

/-- What the doc comment of `Text` describes: the concatenated value of all
text nodes that descend from the node. -/
def descendantText (h : Heap) (fuel : Nat) (node : Addr) : String :=
  textFrom h fuel (h node).FirstChild

/-- The chunks `html.Render` writes for the attributes of a start tag, for
values that need no escaping. -/
def attrChunks (attrs : List Attribute) : List String :=
  attrs.flatMap (fun a => [" ", a.Key, "=\"", a.Val, "\""])

/-- What `html.Render` writes for a subtree of text, comment and non-void
element nodes whose texts need no escaping: the text; the comment between its
marks; the start tag with the attributes, the children and the end tag.  With
`siblings` set, the following siblings are rendered as well. -/
def renderFrom (h : Heap) : Nat → Bool → Addr → Except String (List String)
  | 0, _, _ => .error "html: tree too deep"
  | fuel + 1, siblings, node =>
    let own : Except String (List String) :=
      match (h node).Type_ with
      | .TextNode => .ok [(h node).Data]
      | .CommentNode => .ok ["<!--", (h node).Data, "-->"]
      | .ElementNode =>
        match (h node).FirstChild with
        | none =>
          .ok (["<", (h node).Data] ++ attrChunks (h node).Attr ++ [">", "</", (h node).Data, ">"])
        | some child =>
          match renderFrom h fuel true child with
          | .error er => .error er
          | .ok inner =>
            .ok (["<", (h node).Data] ++ attrChunks (h node).Attr ++ [">"] ++ inner ++
              ["</", (h node).Data, ">"])
      | _ => .error "html: cannot render this node"
    match own with
    | .error er => .error er
    | .ok chunks =>
      if siblings then
        match (h node).NextSibling with
        | none => .ok chunks
        | some next =>
          match renderFrom h fuel true next with
          | .error er => .error er
          | .ok more => .ok (chunks ++ more)
      else .ok chunks

/-- A renderer with tags: `html.Render` on trees of at most eight levels and
siblings. -/
def tagRender : Renderer := fun h node =>
  renderFrom h 8 false node

/-! ## Attr and Val with the attribute arrays explicit

The field `Attr` of a node is a Go slice: a header over a backing array that
the slice of another node may share.  To state what a write leaves alone, the
tree is read here from a memory in which a node record holds the header and
the attributes live in backing arrays; `setAttr` writes one cell of the array
of its node, or appends. -/

/-- A Go slice header over an array of attributes: the array, the offset of
the first cell, the length, and the capacity counted from the offset. -/
structure AttrSlice where
  arr : Nat
  off : Nat
  len : Nat
  cap : Nat
  deriving DecidableEq, Repr

/-- The record `html.Node` with its field `Attr` as a slice header. -/
structure NodeRec where
  FirstChild : Option Addr
  NextSibling : Option Addr
  Type_ : NodeType
  Data : String
  Attr : AttrSlice
  deriving DecidableEq, Repr

/-- The tree memory: the node records, the cells of the attribute arrays, and
the number `next` of attribute arrays allocated so far. -/
structure TreeMem where
  node : Addr → NodeRec
  cells : Nat → Nat → Attribute
  next : Nat

/-- The cells `i, i + 1, .., i + k - 1` of an attribute array. -/
def attrsFrom (cells : Nat → Attribute) : Nat → Nat → List Attribute
  | _, 0 => []
  | i, k + 1 => cells i :: attrsFrom cells (i + 1) k

/-- The attribute list the slice `node.Attr` denotes. -/
def TreeMem.attrs (t : TreeMem) (node : Addr) : List Attribute :=
  attrsFrom (t.cells (t.node node).Attr.arr) (t.node node).Attr.off (t.node node).Attr.len

/-- The tree a memory denotes: every node with the attribute list its slice reads. -/
def TreeMem.heap (t : TreeMem) : Heap := fun node =>
  { FirstChild := (t.node node).FirstChild,
    NextSibling := (t.node node).NextSibling,
    Type_ := (t.node node).Type_,
    Data := (t.node node).Data,
    Attr := t.attrs node }

/-- The loop of `setAttr` on the memory: the first cell among `i, .., i + k - 1`
whose key is `key`. -/
def findKey (cells : Nat → Attribute) (key : String) : Nat → Nat → Option Nat
  | _, 0 => none
  | i, k + 1 => if (cells i).Key = key then some i else findKey cells key (i + 1) k

/-- The function `setAttr` on the memory: the value of the first cell with the
key is overwritten in the backing array; without such a cell the attribute is
appended, into the spare capacity of the array or into a new array, and the
header of the node is replaced. -/
def setAttrMem (grow : Nat → Nat) (t : TreeMem) (node : Addr) (key val : String) : TreeMem :=
  match findKey (t.cells (t.node node).Attr.arr) key (t.node node).Attr.off
      (t.node node).Attr.len with
  | some i =>
    { t with
      cells := Function.update t.cells (t.node node).Attr.arr
        (Function.update (t.cells (t.node node).Attr.arr) i
          { (t.cells (t.node node).Attr.arr i) with Val := val }) }
  | none =>
    if (t.node node).Attr.len < (t.node node).Attr.cap then
      { t with
        cells := Function.update t.cells (t.node node).Attr.arr
          (Function.update (t.cells (t.node node).Attr.arr)
            ((t.node node).Attr.off + (t.node node).Attr.len)
            { Namespace := "", Key := key, Val := val }),
        node := Function.update t.node node
          { (t.node node) with
            Attr := { (t.node node).Attr with len := (t.node node).Attr.len + 1 } } }
    else
      { cells := Function.update t.cells t.next
          (fun j => if j < (t.node node).Attr.len
            then t.cells (t.node node).Attr.arr ((t.node node).Attr.off + j)
            else { Namespace := "", Key := key, Val := val }),
        next := t.next + 1,
        node := Function.update t.node node
          { (t.node node) with
            Attr := { arr := t.next, off := 0, len := (t.node node).Attr.len + 1,
                      cap := (t.node node).Attr.len + 1 + grow (t.node node).Attr.cap } } }

/-- The loop of `HtmlQ.Attr` on the memory. -/
def attrLoopMem (grow : Nat → Nat) (t : TreeMem) (args : List String) :
    List Addr → String × TreeMem
  | [] => ("", t)
  | node :: rest =>
    if (t.node node).Type_ ≠ NodeType.ElementNode then attrLoopMem grow t args rest
    else
      match args with
      | [arg0] => (getAttrLoop arg0 (t.attrs node), t)
      | [arg0, arg1] => ("", setAttrMem grow t node arg0 arg1)
      | _ => attrLoopMem grow t args rest

/-- The method `HtmlQ.Attr` on the memory. -/
def AttrMem (grow : Nat → Nat) (t : TreeMem) (hq : HtmlQ) (args : List String) :
    Except Fault (String × TreeMem) :=
  if args.length = 0 then .error (.panic "Attr needs 1 or 2 arguments")
  else .ok (attrLoopMem grow t args hq.nodes)

/-- The loop of `HtmlQ.setVal` on the memory. -/
def setValLoopMem (grow : Nat → Nat) (t : TreeMem) (val : String) : List Addr → TreeMem
  | [] => t
  | node :: rest =>
    if isValueNode (t.heap node) then setAttrMem grow t node "value" val
    else setValLoopMem grow t val rest

/-- The method `HtmlQ.Val` on the memory. -/
def ValMem (grow : Nat → Nat) (t : TreeMem) (hq : HtmlQ) (args : List String) :
    String × TreeMem :=
  match args with
  | [] => (getValLoop t.heap hq.nodes, t)
  | arg0 :: _ => ("", setValLoopMem grow t arg0 hq.nodes)

/-- The attribute slice of the node `a` is out of reach of a write through the
slice of the node `n`: it is empty, or it lies in an allocated array other than
the array of `n`. -/
def Separate (t : TreeMem) (n a : Addr) : Prop :=
  (t.node a).Attr.len = 0 ∨
    ((t.node a).Attr.arr ≠ (t.node n).Attr.arr ∧ (t.node a).Attr.arr < t.next)

/-- A node record without links. -/
def leafRec (type : NodeType) (data : String) (attr : AttrSlice) : NodeRec :=
  { FirstChild := none, NextSibling := none, Type_ := type, Data := data, Attr := attr }

/-- Two `p` elements whose attribute slices share one array `[a=1, z=9]`: the
node 0 reads both cells, the node 1 reads the first cell and has the second as
spare capacity (`n1.Attr = n0.Attr[:1]`). -/
def sharedTree : TreeMem :=
  { node := fun a =>
      match a with
      | 0 => leafRec .ElementNode "p" { arr := 0, off := 0, len := 2, cap := 2 }
      | 1 => leafRec .ElementNode "p" { arr := 0, off := 0, len := 1, cap := 2 }
      | _ => leafRec .ErrorNode "" { arr := 0, off := 0, len := 0, cap := 0 },
    cells := fun _ i =>
      if i = 0 then { Namespace := "", Key := "a", Val := "1" }
      else { Namespace := "", Key := "z", Val := "9" },
    next := 1 }

/-- Two `input` elements whose attribute slices share one array
`[type=text, value=x]`: the node 0 reads both cells, the node 1 reads the first
cell and has the second as spare capacity. -/
def sharedForm : TreeMem :=
  { node := fun a =>
      match a with
      | 0 => leafRec .ElementNode "input" { arr := 0, off := 0, len := 2, cap := 2 }
      | 1 => leafRec .ElementNode "input" { arr := 0, off := 0, len := 1, cap := 2 }
      | _ => leafRec .ErrorNode "" { arr := 0, off := 0, len := 0, cap := 0 },
    cells := fun _ i =>
      if i = 0 then { Namespace := "", Key := "type", Val := "text" }
      else { Namespace := "", Key := "value", Val := "x" },
    next := 1 }

/-- The form fragment of `formHeap` with an attribute array for each element:
the `div` 1 reads `[id=box]` in the array 0, the `input` 2 reads
`[type=text, value=x]` in the array 1, the `textarea` 3 and the text node 0
have no attributes. -/
def formTree : TreeMem :=
  { node := fun a =>
      match a with
      | 0 => leafRec .TextNode "name: " { arr := 0, off := 0, len := 0, cap := 0 }
      | 1 => leafRec .ElementNode "div" { arr := 0, off := 0, len := 1, cap := 1 }
      | 2 => leafRec .ElementNode "input" { arr := 1, off := 0, len := 2, cap := 2 }
      | 3 => leafRec .ElementNode "textarea" { arr := 0, off := 0, len := 0, cap := 0 }
      | _ => leafRec .ErrorNode "" { arr := 0, off := 0, len := 0, cap := 0 },
    cells := fun arr i =>
      if arr = 0 then { Namespace := "", Key := "id", Val := "box" }
      else if i = 0 then { Namespace := "", Key := "type", Val := "text" }
      else { Namespace := "", Key := "value", Val := "x" },
    next := 2 }

/-! ## Find: lemmas -/

theorem alreadyInSet_eq_decide (n : Addr) (ws : List Addr) :
    alreadyInSet n ws = decide (n ∈ ws) := by
  induction ws with
  | nil => simp [alreadyInSet]
  | cons a ws ih =>
    by_cases ha : a = n
    · simp [alreadyInSet, ha]
    · have hne : ¬ n = a := fun e => ha e.symm
      simp [alreadyInSet, ha, hne, ih]

theorem mem_keepFirst (n : Addr) (l : List Addr) : n ∈ keepFirst l ↔ n ∈ l := by
  induction l with
  | nil => simp [keepFirst]
  | cons a l ih =>
    by_cases hna : n = a
    · simp [keepFirst, hna]
    · simp [keepFirst, List.mem_filter, ih, hna]

theorem nodup_keepFirst (l : List Addr) : (keepFirst l).Nodup := by
  induction l with
  | nil => simp [keepFirst]
  | cons a l ih =>
    simp only [keepFirst, List.nodup_cons]
    refine ⟨?_, ih.filter _⟩
    simp [List.mem_filter]

theorem keepFirst_snoc (l : List Addr) (x : Addr) :
    keepFirst (l ++ [x]) = if x ∈ l then keepFirst l else keepFirst l ++ [x] := by
  induction l with
  | nil => simp [keepFirst]
  | cons a l ih =>
    have hstep : keepFirst (a :: l ++ [x]) =
        a :: (keepFirst (l ++ [x])).filter (fun m => m ≠ a) := rfl
    have hhead : keepFirst (a :: l) = a :: (keepFirst l).filter (fun m => m ≠ a) := rfl
    rw [hstep, hhead, ih]
    by_cases hxl : x ∈ l
    · simp [hxl]
    · by_cases hxa : x = a
      · subst hxa
        simp [hxl, List.filter_append]
      · simp [hxl, hxa, List.filter_append]

theorem addNewNodes_keepFirst (l newNodes : List Addr) :
    addNewNodes (keepFirst l) newNodes = keepFirst (l ++ newNodes) := by
  induction newNodes generalizing l with
  | nil => simp [addNewNodes]
  | cons x xs ih =>
    have hsplit : l ++ x :: xs = (l ++ [x]) ++ xs := by simp
    rw [hsplit, ← ih (l ++ [x]), keepFirst_snoc]
    simp only [addNewNodes, alreadyInSet_eq_decide, mem_keepFirst]
    by_cases hx : x ∈ l
    · simp [hx]
    · simp [hx]

theorem findLoop_keepFirst (s : Selector) (l nodes : List Addr) :
    findLoop s (keepFirst l) nodes = keepFirst (l ++ discovered s nodes) := by
  induction nodes generalizing l with
  | nil => simp [findLoop, discovered]
  | cons a rest ih =>
    simp only [findLoop, addNewNodes_keepFirst, ih]
    simp [discovered]

theorem findLoop_eq (s : Selector) (nodes : List Addr) :
    findLoop s [] nodes = keepFirst (discovered s nodes) := by
  have h := findLoop_keepFirst s [] nodes
  simpa [keepFirst] using h

theorem mem_discovered (s : Selector) (nodes : List Addr) (n : Addr) :
    n ∈ discovered s nodes ↔ ∃ src ∈ nodes, n ∈ s src := by
  simp [discovered, List.mem_flatten]

theorem keepFirst_pairwise_indexOf (l : List Addr) :
    (keepFirst l).Pairwise (fun a b => l.indexOf a < l.indexOf b) := by
  induction l with
  | nil => simp [keepFirst]
  | cons n rest ih =>
    simp only [keepFirst, List.pairwise_cons]
    constructor
    · intro b hb
      have hbn : b ≠ n := by simpa using (List.mem_filter.mp hb).2
      rw [List.indexOf_cons_self, List.indexOf_cons_ne _ (Ne.symm hbn)]
      exact Nat.succ_pos _
    · have hsub : ((keepFirst rest).filter (fun m => m ≠ n)).Pairwise
          (fun a b => rest.indexOf a < rest.indexOf b) := ih.filter _
      refine List.Pairwise.imp_of_mem ?_ hsub
      intro a b ha hb hab
      have han : a ≠ n := by simpa using (List.mem_filter.mp ha).2
      have hbn : b ≠ n := by simpa using (List.mem_filter.mp hb).2
      rw [List.indexOf_cons_ne _ (Ne.symm han), List.indexOf_cons_ne _ (Ne.symm hbn)]
      exact Nat.succ_lt_succ hab

/-! ## Find: the claims -/

/-- C1: when the selector compiles, `Find` returns a node set whose node list
holds no node reference twice, whatever sequences `MatchAll` returns. -/
theorem Find_nodup (compile : Compiler) (m : Selector) (S : HtmlQ) (sel : String)
    (hc : compile sel = .ok m) :
    ∃ R : HtmlQ, S.Find compile sel = .ok R ∧ R.nodes.Nodup := by
  refine ⟨{ nodes := findLoop m [] S.nodes }, ?_, ?_⟩
  · simp [HtmlQ.Find, hc]
  · rw [findLoop_eq]
    exact nodup_keepFirst _

/-- Witness of C1: two source nodes with overlapping, repeating matches. -/
theorem Find_nodup_witness :
    sampleCompile "p" = .ok overlapMatcher ∧
    ∃ R : HtmlQ, HtmlQ.Find sampleCompile { nodes := [0, 1, 0] } "p" = .ok R ∧ R.nodes.Nodup :=
  ⟨by simp [sampleCompile],
   Find_nodup sampleCompile overlapMatcher { nodes := [0, 1, 0] } "p" (by simp [sampleCompile])⟩

/-- C2: when the selector compiles to the matcher `m`, `Find` returns the
concatenation of `m.MatchAll(n)` over the nodes `n` of the receiver in set
order with only the first occurrence of each node kept; a node is in the
result exactly when it is matched from some node of the receiver, and the
nodes of the result stand in the order of their first discovery. -/
theorem Find_eq_keepFirst (compile : Compiler) (m : Selector) (S : HtmlQ) (sel : String)
    (hc : compile sel = .ok m) :
    S.Find compile sel = .ok { nodes := keepFirst (discovered m S.nodes) } ∧
    (∀ n, n ∈ keepFirst (discovered m S.nodes) ↔ ∃ src ∈ S.nodes, n ∈ m src) ∧
    (keepFirst (discovered m S.nodes)).Pairwise
      (fun a b => (discovered m S.nodes).indexOf a < (discovered m S.nodes).indexOf b) := by
  refine ⟨?_, ?_, keepFirst_pairwise_indexOf _⟩
  · simp [HtmlQ.Find, hc, findLoop_eq]
  · intro n
    rw [mem_keepFirst, mem_discovered]

/-- Witness of C2: the receiver `[0, 1, 0]` with the overlapping matcher gives `[1, 2, 3]`. -/
theorem Find_eq_keepFirst_witness :
    sampleCompile "p" = .ok overlapMatcher ∧
    HtmlQ.Find sampleCompile { nodes := [0, 1, 0] } "p" = .ok { nodes := [1, 2, 3] } :=
  ⟨by simp [sampleCompile],
   (Find_eq_keepFirst sampleCompile overlapMatcher { nodes := [0, 1, 0] } "p"
     (by simp [sampleCompile])).1.trans (by decide)⟩

/-! ## Index -/

/-- C3: an index at or past `Len` gives the empty node set, but a negative
index makes `Index` panic on `hq.nodes[idx]` instead of returning the empty
set, on every node set, the empty one included. -/
theorem Index_out_of_bounds (S : HtmlQ) (k : Nat) :
    S.Index (Int.negSucc k) = .error (.panic "index out of range") ∧
    S.Index ((S.Len + k : Nat) : Int) = .ok { nodes := [] } := by
  constructor
  · have hlt : Int.negSucc k < 0 := Int.negSucc_lt_zero k
    have hnot : ¬ ((S.nodes.length : Int) ≤ Int.negSucc k) := by
      have h0 : (0 : Int) ≤ (S.nodes.length : Int) := Int.ofNat_nonneg _
      omega
    simp [HtmlQ.Index, sliceIndex, hnot, hlt]
  · have hle : (S.nodes.length : Int) ≤ ((S.Len + k : Nat) : Int) := by
      simp [HtmlQ.Len]
    simp only [HtmlQ.Index, hle, if_true]

/-! ## ForEach -/

theorem forEachLoop_log {σ : Type} (g : HtmlQ → σ → σ) (nodes : List Addr) (st : σ)
    (log : List HtmlQ) :
    forEachLoop (fun q (p : σ × List HtmlQ) => Except.ok (g q p.1, p.2 ++ [q])) nodes (st, log) =
      .ok ((nodes.map (fun n => ({ nodes := [n] } : HtmlQ))).foldl (fun s q => g q s) st,
           log ++ nodes.map (fun n => ({ nodes := [n] } : HtmlQ))) := by
  induction nodes generalizing st log with
  | nil => simp [forEachLoop]
  | cons n rest ih => simp [forEachLoop, ih]

/-- C4: `ForEach` calls the visitor once per node of the receiver: the log of
the arguments of the calls is the list of the singleton node sets of the nodes
of `S` in set order (so there are `Len` calls and the k-th one receives a node
set of length 1 holding the k-th node), the state of the caller is the one the
visitor produces over these calls in that order, and the returned node set is
`S` itself. -/
theorem ForEach_calls {σ : Type} (S : HtmlQ) (g : HtmlQ → σ → σ) (st : σ) :
    S.ForEach (fun q (p : σ × List HtmlQ) => Except.ok (g q p.1, p.2 ++ [q])) (st, []) =
      .ok (S, (S.nodes.map (fun n => ({ nodes := [n] } : HtmlQ))).foldl (fun s q => g q s) st,
              S.nodes.map (fun n => ({ nodes := [n] } : HtmlQ))) ∧
    (S.nodes.map (fun n => ({ nodes := [n] } : HtmlQ))).length = S.Len ∧
    (∀ k : Nat, (S.nodes.map (fun n => ({ nodes := [n] } : HtmlQ)))[k]? =
        (S.nodes[k]?).map (fun n => ({ nodes := [n] } : HtmlQ))) ∧
    (∀ q ∈ S.nodes.map (fun n => ({ nodes := [n] } : HtmlQ)), q.Len = 1) := by
  refine ⟨?_, ?_, ?_, ?_⟩
  · simp [HtmlQ.ForEach, forEachLoop_log]
  · simp [HtmlQ.Len]
  · intro k
    simp
  · intro q hq
    obtain ⟨n, _, rfl⟩ := List.mem_map.mp hq
    rfl

/-- Instance of C4: a visitor that counts its calls, on a set of three nodes. -/
theorem ForEach_calls_witness :
    HtmlQ.ForEach { nodes := [7, 5, 9] }
        (fun q (p : Nat × List HtmlQ) => Except.ok (p.1 + 1, p.2 ++ [q])) (0, []) =
      .ok ({ nodes := [7, 5, 9] }, 3, [{ nodes := [7] }, { nodes := [5] }, { nodes := [9] }]) :=
  (ForEach_calls { nodes := [7, 5, 9] } (fun _ n => n + 1) 0).1.trans (by decide)

/-! ## Text: lemmas -/

theorem join_cons (a : String) (l : List String) : String.join (a :: l) = a ++ String.join l := by
  apply String.ext
  simp [String.data_join]

theorem join_nil : String.join [] = "" := rfl

theorem writeAll_s (work : stringWriter) (chunks : List String) :
    writeAll work chunks = { s := work.s ++ String.join chunks } := by
  induction chunks generalizing work with
  | nil => simp [writeAll, join_nil]
  | cons bs rest ih =>
    simp [writeAll, ih, stringWriter.Write, join_cons, String.append_assoc]

theorem textLoop_ok (render : Renderer) (h : Heap) (link : Option Addr) (cs : List Addr)
    (hcs : Siblings h link cs) (hr : ∀ c ∈ cs, ∃ chunks, render h c = .ok chunks)
    (fuel : Nat) (hf : cs.length ≤ fuel) (work : stringWriter) :
    textLoop render h fuel link work = .ok { s := work.s ++ innerMarkup render h cs } := by
  induction hcs generalizing fuel work with
  | done => simp [textLoop, innerMarkup, join_nil]
  | next child rest _ ih =>
    obtain ⟨chunks, hchunks⟩ := hr child (List.mem_cons_self _ _)
    cases fuel with
    | zero => simp at hf
    | succ fuel =>
      have hrest : ∀ c ∈ rest, ∃ chunks, render h c = .ok chunks :=
        fun c hc => hr c (List.mem_cons_of_mem _ hc)
      have hlen : rest.length ≤ fuel := by simpa using hf
      simp only [textLoop, hchunks]
      rw [ih hrest fuel hlen, writeAll_s]
      simp [innerMarkup, markup, hchunks, join_cons, String.append_assoc]

theorem sliceIndex_ok (nodes : List Addr) (i : Nat) (node : Addr) (hi : nodes[i]? = some node) :
    sliceIndex nodes (i : Int) = .ok node := by
  have hneg : ¬ ((i : Int) < 0) := by omega
  simp [sliceIndex, hneg, hi]

theorem Text_at (render : Renderer) (h : Heap) (S : HtmlQ) (i : Nat) (node : Addr)
    (cs : List Addr) (hi : S.nodes[i]? = some node)
    (hcs : Siblings h (h node).FirstChild cs)
    (hr : ∀ c ∈ cs, ∃ chunks, render h c = .ok chunks)
    (fuel : Nat) (hf : cs.length ≤ fuel) :
    S.Text render h fuel [(i : Int)] = .ok (innerMarkup render h cs) := by
  have hlt : i < S.nodes.length := by
    rcases Nat.lt_or_ge i S.nodes.length with hlt | hge
    · exact hlt
    · rw [List.getElem?_eq_none hge] at hi
      cases hi
  have hnot : ¬ ((S.nodes.length : Int) ≤ (i : Int)) := by omega
  simp only [HtmlQ.Text, hnot, if_false, sliceIndex_ok S.nodes i node hi]
  rw [textLoop_ok render h _ cs hcs hr fuel hf]
  simp [stringWriter.String]

theorem Text_default (render : Renderer) (h : Heap) (fuel : Nat) (S : HtmlQ) :
    S.Text render h fuel [] = S.Text render h fuel [0] := rfl

theorem forEachLoop_collectText (render : Renderer) (h : Heap) (fuel : Nat)
    (children : Addr → List Addr) (nodes : List Addr)
    (hk : ∀ n ∈ nodes, Siblings h (h n).FirstChild (children n) ∧
      (children n).length ≤ fuel ∧ ∀ c ∈ children n, ∃ chunks, render h c = .ok chunks)
    (found : List String) :
    forEachLoop (collectText render h fuel) nodes found =
      .ok (found ++ nodes.map (fun n => innerMarkup render h (children n))) := by
  induction nodes generalizing found with
  | nil => simp [forEachLoop]
  | cons n rest ih =>
    obtain ⟨hcs, hf, hr⟩ := hk n (List.mem_cons_self _ _)
    have hone : HtmlQ.Text render h fuel { nodes := [n] } [] =
        .ok (innerMarkup render h (children n)) := by
      rw [Text_default]
      exact Text_at render h { nodes := [n] } 0 n (children n) rfl hcs hr fuel hf
    have hrest := ih (fun m hm => hk m (List.mem_cons_of_mem _ hm))
    simp [forEachLoop, collectText, hone, hrest]

/-! ## ForEach with Text -/

/-- C5: when every node of `S` has a finite child list on which the renderer
succeeds (and the fuel covers it), `ForEach` with the visitor that appends
`q.Text()` to a list returns `S` and a list `found` of `Len` strings; the k-th
string is the inner markup of the k-th node of `S`, and it is what `S.Text(k)`
returns. -/
theorem ForEach_collectText (render : Renderer) (h : Heap) (fuel : Nat) (S : HtmlQ)
    (children : Addr → List Addr)
    (hk : ∀ n ∈ S.nodes, Siblings h (h n).FirstChild (children n) ∧
      (children n).length ≤ fuel ∧ ∀ c ∈ children n, ∃ chunks, render h c = .ok chunks) :
    ∃ found : List String,
      S.ForEach (collectText render h fuel) [] = .ok (S, found) ∧
      found.length = S.Len ∧
      found = S.nodes.map (fun n => innerMarkup render h (children n)) ∧
      (List.range S.Len).map (fun k : Nat => S.Text render h fuel [(k : Int)]) =
        found.map Except.ok := by
  refine ⟨S.nodes.map (fun n => innerMarkup render h (children n)), ?_, ?_, rfl, ?_⟩
  · simp [HtmlQ.ForEach, forEachLoop_collectText render h fuel children S.nodes hk]
  · simp [HtmlQ.Len]
  · apply List.ext_getElem?
    intro k
    by_cases hlt : k < S.nodes.length
    · have hnode : S.nodes[k]? = some S.nodes[k] := List.getElem?_eq_getElem hlt
      obtain ⟨hcs, hf, hr⟩ := hk S.nodes[k] (List.getElem_mem hlt)
      have ht := Text_at render h S k S.nodes[k] (children S.nodes[k]) hnode hcs hr fuel hf
      simp [HtmlQ.Len, hlt, ht, List.getElem?_eq_getElem]
    · have hge : S.nodes.length ≤ k := Nat.le_of_not_lt hlt
      have h1 : (List.range S.nodes.length)[k]? = none :=
        List.getElem?_eq_none (by simpa using hge)
      have h2 : S.nodes[k]? = none := List.getElem?_eq_none hge
      simp [HtmlQ.Len, h1, h2]

/-- Witness of C5: on the document of `Test1` the two `span.post-id` nodes give
`["102", "103"]`, which are `Text(0)` and `Text(1)` of that set. -/
theorem ForEach_collectText_witness :
    postIds.ForEach (collectText textRender testDocument 1) [] =
      .ok (postIds, ["102", "103"]) ∧
    [postIds.Text textRender testDocument 1 [0], postIds.Text textRender testDocument 1 [1]] =
      [.ok "102", .ok "103"] := by
  obtain ⟨found, hrun, _, hfound, htext⟩ :=
    ForEach_collectText textRender testDocument 1 postIds postIdChildren (by
      intro n hn
      have hn' : n = 5 ∨ n = 9 := by simpa [postIds] using hn
      rcases hn' with rfl | rfl
      · refine ⟨Siblings.next 6 [] Siblings.done, by decide, ?_⟩
        intro c hc
        have hc' : c = 6 := by simpa [postIdChildren] using hc
        subst hc'
        exact ⟨["102"], rfl⟩
      · refine ⟨Siblings.next 10 [] Siblings.done, by decide, ?_⟩
        intro c hc
        have hc' : c = 10 := by simpa [postIdChildren] using hc
        subst hc'
        exact ⟨["103"], rfl⟩)
  have hvals : found = ["102", "103"] := by
    rw [hfound]
    decide
  subst hvals
  exact ⟨hrun, htext⟩

/-! ## Val and Attr: lemmas -/

theorem setAttr_same (h : Heap) (node : Addr) (key val : String) :
    setAttr h node key val node = { h node with Attr := setAttrList key val (h node).Attr } := by
  simp [setAttr]

theorem setAttr_other (h : Heap) (node a : Addr) (key val : String) (hne : a ≠ node) :
    setAttr h node key val a = h a := by
  simp [setAttr, Function.update_noteq hne]

theorem setAttr_Type (h : Heap) (node a : Addr) (key val : String) :
    (setAttr h node key val a).Type_ = (h a).Type_ := by
  by_cases hne : a = node
  · subst hne
    rw [setAttr_same]
  · rw [setAttr_other h node a key val hne]

theorem setAttr_Data (h : Heap) (node a : Addr) (key val : String) :
    (setAttr h node key val a).Data = (h a).Data := by
  by_cases hne : a = node
  · subst hne
    rw [setAttr_same]
  · rw [setAttr_other h node a key val hne]

theorem isValueNode_setAttr (h : Heap) (node a : Addr) (key val : String) :
    isValueNode (setAttr h node key val a) = isValueNode (h a) := by
  simp [isValueNode, setAttr_Type, setAttr_Data]

theorem isValueNode_setValLoop (h : Heap) (val : String) (nodes : List Addr) (a : Addr) :
    isValueNode (setValLoop h val nodes a) = isValueNode (h a) := by
  induction nodes with
  | nil => rfl
  | cons n rest ih =>
    by_cases hv : isValueNode (h n) = true
    · simp [setValLoop, hv, isValueNode_setAttr]
    · simp [setValLoop, hv, ih]

theorem getAttrLoop_setAttrList (key val : String) (attrs : List Attribute) :
    getAttrLoop key (setAttrList key val attrs) = val := by
  induction attrs with
  | nil => simp [setAttrList, setAttrLoop, getAttrLoop]
  | cons a rest ih =>
    by_cases hk : a.Key = key
    · simp [setAttrList, setAttrLoop, getAttrLoop, hk]
    · cases hloop : setAttrLoop key val rest with
      | none =>
        have ih' : getAttrLoop key (rest ++ [{ Namespace := "", Key := key, Val := val }]) = val := by
          simpa [setAttrList, hloop] using ih
        simp [setAttrList, setAttrLoop, getAttrLoop, hk, hloop, ih']
      | some rest' =>
        have ih' : getAttrLoop key rest' = val := by
          simpa [setAttrList, hloop] using ih
        simp [setAttrList, setAttrLoop, getAttrLoop, hk, hloop, ih']

theorem getAttr_setAttr (h : Heap) (node : Addr) (key val : String) :
    getAttr (setAttr h node key val) node key = val := by
  simp [getAttr, setAttr_same, getAttrLoop_setAttrList]

theorem getAttrLoop_eq_attrValue (key : String) (attrs : List Attribute) :
    getAttrLoop key attrs = attrValue key attrs := by
  induction attrs with
  | nil => rfl
  | cons a rest ih =>
    by_cases hk : a.Key = key
    · simp [getAttrLoop, attrValue, List.find?, hk]
    · have ih' := ih
      simp only [attrValue] at ih'
      simp [getAttrLoop, attrValue, List.find?, hk, ih']

theorem isValueNode_iff (node : Node) :
    isValueNode node = decide (node.Type_ = NodeType.ElementNode ∧
      (node.Data = "input" ∨ node.Data = "textarea" ∨ node.Data = "select")) := by
  by_cases ht : node.Type_ = NodeType.ElementNode
  · by_cases h1 : node.Data = "input"
    · simp [isValueNode, ht, h1]
    · by_cases h2 : node.Data = "textarea"
      · simp [isValueNode, ht, h2]
      · by_cases h3 : node.Data = "select"
        · simp [isValueNode, ht, h3]
        · simp [isValueNode, ht, h1, h2, h3]
  · simp [isValueNode, ht]

theorem getValLoop_set (h : Heap) (val : String) (nodes : List Addr)
    (hv : ∃ n ∈ nodes, isValueNode (h n) = true) :
    getValLoop (setValLoop h val nodes) nodes = val := by
  induction nodes with
  | nil => simp at hv
  | cons n rest ih =>
    by_cases hn : isValueNode (h n) = true
    · simp [getValLoop, setValLoop, hn, isValueNode_setAttr, getAttr_setAttr]
    · have hrest : ∃ m ∈ rest, isValueNode (h m) = true := by
        obtain ⟨m, hm, hmv⟩ := hv
        rcases List.mem_cons.mp hm with rfl | hm'
        · exact absurd hmv hn
        · exact ⟨m, hm', hmv⟩
      have hn' : isValueNode (setValLoop h val rest n) = false := by
        rw [isValueNode_setValLoop]
        simpa using hn
      simp [getValLoop, setValLoop, hn, hn', ih hrest]

theorem attrLoop_set_get (h : Heap) (key val : String) (nodes : List Addr)
    (he : ∃ n ∈ nodes, (h n).Type_ = NodeType.ElementNode) :
    (attrLoop h [key, val] nodes).1 = "" ∧
    attrLoop (attrLoop h [key, val] nodes).2 [key] nodes =
      (val, (attrLoop h [key, val] nodes).2) := by
  induction nodes with
  | nil => simp at he
  | cons n rest ih =>
    by_cases hn : (h n).Type_ = NodeType.ElementNode
    · simp [attrLoop, hn, setAttr_Type, getAttr_setAttr]
    · have hrest : ∃ m ∈ rest, (h m).Type_ = NodeType.ElementNode := by
        obtain ⟨m, hm, hmt⟩ := he
        rcases List.mem_cons.mp hm with rfl | hm'
        · exact absurd hmt hn
        · exact ⟨m, hm', hmt⟩
      have hframe : ∀ (nodes : List Addr) (a : Addr),
          ((attrLoop h [key, val] nodes).2 a).Type_ = (h a).Type_ := by
        intro nodes a
        induction nodes with
        | nil => rfl
        | cons m ms ihm =>
          by_cases hm : (h m).Type_ = NodeType.ElementNode
          · simp [attrLoop, hm, setAttr_Type]
          · simp [attrLoop, hm, ihm]
      have hn' : ¬ ((attrLoop h [key, val] rest).2 n).Type_ = NodeType.ElementNode := by
        rw [hframe]
        exact hn
      obtain ⟨ih1, ih2⟩ := ih hrest
      simp [attrLoop, hn, hn', ih1, ih2]

theorem setAttrList_created (key val : String) (attrs : List Attribute) :
    ∃ a ∈ setAttrList key val attrs, a.Key = key ∧ a.Val = val := by
  induction attrs with
  | nil => simp [setAttrList, setAttrLoop]
  | cons b rest ih =>
    by_cases hk : b.Key = key
    · exact ⟨{ b with Val := val }, by simp [setAttrList, setAttrLoop, hk], hk, rfl⟩
    · obtain ⟨a, ha, hak, hav⟩ := ih
      refine ⟨a, ?_, hak, hav⟩
      cases hloop : setAttrLoop key val rest with
      | none =>
        have ha' : a ∈ rest ++ [{ Namespace := "", Key := key, Val := val }] := by
          simpa [setAttrList, hloop] using ha
        simpa [setAttrList, setAttrLoop, hk, hloop] using Or.inr ha'
      | some rest' =>
        have ha' : a ∈ rest' := by simpa [setAttrList, hloop] using ha
        simpa [setAttrList, setAttrLoop, hk, hloop] using Or.inr ha'

theorem attrLoop_set_eq (h : Heap) (key val : String) (nodes : List Addr) (n : Addr)
    (hn : firstElement h nodes = some n) :
    (attrLoop h [key, val] nodes).2 = setAttr h n key val := by
  induction nodes with
  | nil => simp [firstElement] at hn
  | cons m rest ih =>
    by_cases hm : (h m).Type_ = NodeType.ElementNode
    · have hmn : m = n := by simpa [firstElement, List.find?, hm] using hn
      subst hmn
      simp [attrLoop, hm]
    · have hrest : firstElement h rest = some n := by
        simpa [firstElement, List.find?, hm] using hn
      simp [attrLoop, hm, ih hrest]

theorem attrLoop_get (h : Heap) (key : String) (nodes : List Addr) :
    attrLoop h [key] nodes =
      ((match firstElement h nodes with
        | some n => attrValue key (h n).Attr
        | none => ""), h) := by
  induction nodes with
  | nil => rfl
  | cons m rest ih =>
    by_cases hm : (h m).Type_ = NodeType.ElementNode
    · simp [attrLoop, firstElement, List.find?, hm, getAttr, getAttrLoop_eq_attrValue]
    · have ih' := ih
      simp only [firstElement] at ih'
      simp [attrLoop, firstElement, List.find?, hm, ih']

theorem getValLoop_eq (h : Heap) (nodes : List Addr) :
    getValLoop h nodes =
      (match firstValueNode h nodes with
        | some n => attrValue "value" (h n).Attr
        | none => "") := by
  induction nodes with
  | nil => rfl
  | cons m rest ih =>
    have hiff := isValueNode_iff (h m)
    by_cases hm : isValueNode (h m) = true
    · have hd := hiff.symm.trans hm
      simp only [firstValueNode, List.find?, hd]
      simp [getValLoop, hm, getAttr, getAttrLoop_eq_attrValue]
    · have hm' : isValueNode (h m) = false := by simpa using hm
      have hd := hiff.symm.trans hm'
      have ih' := ih
      simp only [firstValueNode] at ih'
      simp only [firstValueNode, List.find?, hd]
      simp [getValLoop, hm', ih']

/-! ## Val and Attr: the claims -/

/-- C6: when `S` holds an element with the tag `input`, `textarea` or `select`,
`S.Val(y)` followed by `S.Val()` returns `y`. -/
theorem Val_set_then_get (h : Heap) (S : HtmlQ) (y : String)
    (hv : ∃ n ∈ S.nodes, (h n).Type_ = NodeType.ElementNode ∧
      ((h n).Data = "input" ∨ (h n).Data = "textarea" ∨ (h n).Data = "select")) :
    (S.Val (S.Val h [y]).2 []).1 = y := by
  have hv' : ∃ n ∈ S.nodes, isValueNode (h n) = true := by
    obtain ⟨n, hn, hcond⟩ := hv
    exact ⟨n, hn, by rw [isValueNode_iff]; exact decide_eq_true hcond⟩
  simpa [HtmlQ.Val, HtmlQ.getVal, HtmlQ.setVal] using getValLoop_set h y S.nodes hv'

/-- Witness of C6: the `input` with `value="x"` behind a text node and a `div`. -/
theorem Val_set_then_get_witness :
    (HtmlQ.Val formHeap { nodes := [0, 1, 2, 3] } []).1 = "x" ∧
    (HtmlQ.Val (HtmlQ.Val formHeap { nodes := [0, 1, 2, 3] } ["y"]).2
      { nodes := [0, 1, 2, 3] } []).1 = "y" :=
  ⟨by decide,
   Val_set_then_get formHeap { nodes := [0, 1, 2, 3] } "y" ⟨2, by decide, by decide⟩⟩

/-- C7: when `S` holds an element node, `S.Attr(k, v)` returns normally and a
following `S.Attr(k)` returns `v`; after the first call the first element node
of `S` carries an attribute with key `k` and value `v`, whether it had one
before or not. -/
theorem Attr_set_then_get (h : Heap) (S : HtmlQ) (k v : String)
    (he : ∃ n ∈ S.nodes, (h n).Type_ = NodeType.ElementNode) :
    ∃ h' : Heap, S.Attr h [k, v] = .ok ("", h') ∧ S.Attr h' [k] = .ok (v, h') ∧
      ∀ n, firstElement h S.nodes = some n → ∃ a ∈ (h' n).Attr, a.Key = k ∧ a.Val = v := by
  obtain ⟨h1, h2⟩ := attrLoop_set_get h k v S.nodes he
  refine ⟨(attrLoop h [k, v] S.nodes).2, ?_, ?_, ?_⟩
  · simp only [HtmlQ.Attr]
    rw [← h1]
    simp
  · simp [HtmlQ.Attr, h2]
  · intro n hn
    rw [attrLoop_set_eq h k v S.nodes n hn, setAttr_same]
    exact setAttrList_created k v (h n).Attr

/-- Witness of C7: `data-foo` is absent from the `div`, is created, and is read back. -/
theorem Attr_set_then_get_witness :
    HtmlQ.Attr formHeap { nodes := [0, 1, 2] } ["data-foo"] = .ok ("", formHeap) ∧
    ∃ h' : Heap, HtmlQ.Attr formHeap { nodes := [0, 1, 2] } ["data-foo", "bar"] = .ok ("", h') ∧
      HtmlQ.Attr h' { nodes := [0, 1, 2] } ["data-foo"] = .ok ("bar", h') := by
  obtain ⟨h', hset, hget, _⟩ :=
    Attr_set_then_get formHeap { nodes := [0, 1, 2] } "data-foo" "bar" ⟨1, by decide, by decide⟩
  exact ⟨rfl, h', hset, hget⟩

/-- C8: `S.Attr(k)` returns normally, leaves the tree as it is, and returns the
value of the first attribute with key `k` of the first element node of `S`;
the empty string when that node has no such attribute or `S` has no element
node. -/
theorem Attr_get (h : Heap) (S : HtmlQ) (k : String) :
    S.Attr h [k] =
      .ok ((match firstElement h S.nodes with
            | some n => attrValue k (h n).Attr
            | none => ""), h) := by
  simp [HtmlQ.Attr, attrLoop_get]

/-- Instances of C8 on the form fragment. -/
theorem Attr_get_witness :
    HtmlQ.Attr formHeap { nodes := [0, 2, 1] } ["value"] = .ok ("x", formHeap) ∧
    HtmlQ.Attr formHeap { nodes := [0, 1, 2] } ["value"] = .ok ("", formHeap) ∧
    HtmlQ.Attr formHeap { nodes := [0] } ["value"] = .ok ("", formHeap) ∧
    HtmlQ.Attr formHeap { nodes := [] } ["value"] = .ok ("", formHeap) :=
  ⟨(Attr_get formHeap { nodes := [0, 2, 1] } "value").trans (by simp [firstElement, attrValue, formHeap, leaf]),
   rfl, rfl, rfl⟩

/-- C9: `S.Val()` leaves the tree as it is and returns the `value` attribute of
the first node of `S`, in set order, that is an element with tag `input`,
`textarea` or `select`; the empty string when there is no such node (so also
for the empty set) or when that node has no `value` attribute. -/
theorem Val_get (h : Heap) (S : HtmlQ) :
    S.Val h [] =
      ((match firstValueNode h S.nodes with
        | some n => attrValue "value" (h n).Attr
        | none => ""), h) := by
  simp [HtmlQ.Val, HtmlQ.getVal, getValLoop_eq]

/-- Instances of C9 on the form fragment: the `input` is found behind a text
node and a `div`; the `textarea` has no value; a set without a value-bearing
node and the empty set give the empty string. -/
theorem Val_get_witness :
    (HtmlQ.Val formHeap { nodes := [0, 1, 2, 3] } []).1 = "x" ∧
    (HtmlQ.Val formHeap { nodes := [3, 2] } []).1 = "" ∧
    (HtmlQ.Val formHeap { nodes := [0, 1] } []).1 = "" ∧
    (HtmlQ.Val formHeap { nodes := [] } []).1 = "" :=
  ⟨(congrArg Prod.fst (Val_get formHeap { nodes := [0, 1, 2, 3] })).trans (by decide),
   by decide, by decide, by decide⟩

/-! ## Text: the claim -/

/-- C10: with no argument `Text` uses the index 0; for an index `i ≥ 0` with
`Len ≤ i` (so on the empty set) it returns the empty string; otherwise, when
the node at `i` has the children `cs` and the renderer succeeds on each of
them, `Text`, given fuel for the child walk, returns the markup of the
children concatenated in child order. -/
theorem Text_spec (render : Renderer) (h : Heap) (S : HtmlQ) (i : Nat) :
    (∀ fuel, S.Text render h fuel [] = S.Text render h fuel [0]) ∧
    (S.Len ≤ i → ∀ fuel, S.Text render h fuel [(i : Int)] = .ok "") ∧
    (∀ node cs, S.nodes[i]? = some node → Siblings h (h node).FirstChild cs →
      (∀ c ∈ cs, ∃ chunks, render h c = .ok chunks) →
      ∀ fuel, cs.length ≤ fuel →
        S.Text render h fuel [(i : Int)] = .ok (String.join (cs.map (markup render h)))) := by
  refine ⟨fun fuel => Text_default render h fuel S, ?_, ?_⟩
  · intro hlen fuel
    have hle : (S.nodes.length : Int) ≤ (i : Int) := by
      simpa [HtmlQ.Len] using hlen
    simp only [HtmlQ.Text, hle, if_true]
  · intro node cs hi hcs hr fuel hf
    exact Text_at render h S i node cs hi hcs hr fuel hf

/-- Witness of C10: the paragraph with the children text `a`, comment `c`, text
`b` gives `a<!--c-->b`; an index past the end and the empty set give the empty
string. -/
theorem Text_spec_witness :
    HtmlQ.Text textRender mixedHeap 3 { nodes := [0] } [] = .ok "a<!--c-->b" ∧
    HtmlQ.Text textRender mixedHeap 3 { nodes := [0] } [1] = .ok "" ∧
    HtmlQ.Text textRender mixedHeap 3 { nodes := [] } [] = .ok "" := by
  have hspec := Text_spec textRender mixedHeap { nodes := [0] } 0
  have hempty := Text_spec textRender mixedHeap { nodes := [] } 0
  have hpast := Text_spec textRender mixedHeap { nodes := [0] } 1
  refine ⟨?_, hpast.2.1 (by decide) 3, ?_⟩
  · rw [hspec.1 3]
    have hkids : Siblings mixedHeap (mixedHeap 0).FirstChild [1, 2, 3] :=
      Siblings.next 1 [2, 3] (Siblings.next 2 [3] (Siblings.next 3 [] Siblings.done))
    have hr : ∀ c ∈ [1, 2, 3], ∃ chunks, textRender mixedHeap c = .ok chunks := by
      intro c hc
      have hc' : c = 1 ∨ c = 2 ∨ c = 3 := by simpa using hc
      rcases hc' with rfl | rfl | rfl
      · exact ⟨["a"], rfl⟩
      · exact ⟨["<!--", "c", "-->"], rfl⟩
      · exact ⟨["b"], rfl⟩
    exact (hspec.2.2 0 [1, 2, 3] rfl hkids hr 3 (by decide)).trans (by decide)
  · rw [hempty.1 3]
    exact hempty.2.1 (by decide) 3

/-! ## ParseString and ParseReader: the claims -/

/-- C11: when the parser succeeds with the root `root`, `ParseReader` returns
no error and the receiver holds exactly the list `[root]`, whatever it held
before: `Len` is 1 and `Node` is `root`; `ParseString` does the same on the
reader of its string. -/
theorem Parse_success (parse : Parser) (h h' : Heap) (hq : HtmlQ) (r : Reader) (root : Addr)
    (hp : parse h r = .ok (root, h')) :
    hq.ParseReader parse h r = (none, { nodes := [root] }, h') ∧
    (hq.ParseReader parse h r).2.1.Len = 1 ∧
    (hq.ParseReader parse h r).2.1.Node = some root ∧
    (∀ str, NewReader str = r →
      hq.ParseString parse h str = (none, { nodes := [root] }, h')) := by
  have hrun : hq.ParseReader parse h r = (none, { nodes := [root] }, h') := by
    simp [HtmlQ.ParseReader, hp]
  refine ⟨hrun, ?_, ?_, ?_⟩
  · rw [hrun]
    rfl
  · rw [hrun]
    rfl
  · intro str hstr
    simp [HtmlQ.ParseString, hstr, hrun]

/-- Witness of C11: a receiver that held three nodes holds the root alone after parsing. -/
theorem Parse_success_witness :
    HtmlQ.ParseString sampleParse formHeap { nodes := [1, 2, 3] } "<p>x</p>" =
      (none, { nodes := [0] }, testDocument) :=
  (Parse_success sampleParse formHeap testDocument { nodes := [1, 2, 3] } (NewReader "<p>x</p>") 0
    (by simp [sampleParse, NewReader])).2.2.2 "<p>x</p>" rfl

/-- C20: when the parser fails with the error `e`, `ParseReader` returns `e`
and the receiver keeps the node list it had; `ParseString` does the same on
the reader of its string. -/
theorem Parse_failure (parse : Parser) (h : Heap) (hq : HtmlQ) (r : Reader) (e : String)
    (hp : parse h r = .error e) :
    hq.ParseReader parse h r = (some e, hq, h) ∧
    (hq.ParseReader parse h r).2.1.nodes = hq.nodes ∧
    (∀ str, NewReader str = r → hq.ParseString parse h str = (some e, hq, h)) := by
  have hrun : hq.ParseReader parse h r = (some e, hq, h) := by
    simp [HtmlQ.ParseReader, hp]
  refine ⟨hrun, ?_, ?_⟩
  · rw [hrun]
  · intro str hstr
    simp [HtmlQ.ParseString, hstr, hrun]

/-- Witness of C20: a read error leaves the three nodes of the receiver in place. -/
theorem Parse_failure_witness :
    HtmlQ.ParseReader sampleParse formHeap { nodes := [1, 2, 3] } (.error "read failed") =
      (some "read failed", { nodes := [1, 2, 3] }, formHeap) ∧
    HtmlQ.ParseString sampleParse formHeap { nodes := [1, 2, 3] } "" =
      (some "empty document", { nodes := [1, 2, 3] }, formHeap) :=
  ⟨(Parse_failure sampleParse formHeap { nodes := [1, 2, 3] } (.error "read failed")
      "read failed" rfl).1,
   (Parse_failure sampleParse formHeap { nodes := [1, 2, 3] } (NewReader "")
      "empty document" (by simp [sampleParse, NewReader])).2.2 "" rfl⟩

/-! ## Attr: the number of arguments -/

/-- C12: `Attr` panics exactly when it is called without arguments; with one
or more arguments it returns, on every node set. -/
theorem Attr_panics_iff (h : Heap) (S : HtmlQ) (args : List String) :
    ((∃ msg, S.Attr h args = .error (.panic msg)) ↔ args = []) ∧
    (args ≠ [] → ∃ r, S.Attr h args = .ok r) ∧
    (args = [] → S.Attr h args = .error (.panic "Attr needs 1 or 2 arguments")) := by
  cases args with
  | nil => simp [HtmlQ.Attr]
  | cons a rest => simp [HtmlQ.Attr]

/-- Instances of C12 on the empty set and on the form fragment. -/
theorem Attr_panics_iff_witness :
    HtmlQ.Attr formHeap { nodes := [] } [] = .error (.panic "Attr needs 1 or 2 arguments") ∧
    HtmlQ.Attr formHeap { nodes := [0, 1] } [] = .error (.panic "Attr needs 1 or 2 arguments") ∧
    ∃ r, HtmlQ.Attr formHeap { nodes := [] } ["id"] = .ok r :=
  ⟨(Attr_panics_iff formHeap { nodes := [] } []).2.2 rfl, rfl,
   (Attr_panics_iff formHeap { nodes := [] } ["id"]).2.1 (by simp)⟩

theorem attrLoop_many (h : Heap) (a b c : String) (more : List String) (nodes : List Addr) :
    attrLoop h (a :: b :: c :: more) nodes = ("", h) := by
  induction nodes with
  | nil => rfl
  | cons n rest ih =>
    by_cases hn : (h n).Type_ = NodeType.ElementNode
    · simp [attrLoop, hn, ih]
    · simp [attrLoop, hn, ih]

/-- C19: with three or more arguments `Attr` returns the empty string without
failing and leaves the tree, so every attribute list, as it is. -/
theorem Attr_three_or_more (h : Heap) (S : HtmlQ) (a b c : String) (more : List String) :
    S.Attr h (a :: b :: c :: more) = .ok ("", h) := by
  simp [HtmlQ.Attr, attrLoop_many]

/-! ## Attr and Val: what a write leaves alone -/

theorem setAttrLoop_none (key val : String) (attrs : List Attribute)
    (hno : ∀ b ∈ attrs, b.Key ≠ key) : setAttrLoop key val attrs = none := by
  induction attrs with
  | nil => rfl
  | cons a rest ih =>
    have ha : a.Key ≠ key := hno a (List.mem_cons_self _ _)
    have hrest := ih (fun b hb => hno b (List.mem_cons_of_mem _ hb))
    simp [setAttrLoop, ha, hrest]

theorem setAttrLoop_split (key val : String) (pre post : List Attribute) (a : Attribute)
    (hpre : ∀ b ∈ pre, b.Key ≠ key) (ha : a.Key = key) :
    setAttrLoop key val (pre ++ a :: post) = some (pre ++ { a with Val := val } :: post) := by
  induction pre with
  | nil => simp [setAttrLoop, ha]
  | cons p rest ih =>
    have hp : p.Key ≠ key := hpre p (List.mem_cons_self _ _)
    have hrest := ih (fun b hb => hpre b (List.mem_cons_of_mem _ hb))
    simp [setAttrLoop, hp, hrest]

theorem setAttrList_filter (key val : String) (attrs : List Attribute) :
    (setAttrList key val attrs).filter (fun a => decide (a.Key ≠ key)) =
      attrs.filter (fun a => decide (a.Key ≠ key)) := by
  induction attrs with
  | nil => simp [setAttrList, setAttrLoop]
  | cons b rest ih =>
    by_cases hk : b.Key = key
    · simp [setAttrList, setAttrLoop, hk, List.filter_cons]
    · cases hloop : setAttrLoop key val rest with
      | none =>
        have ih' : (rest ++ [({ Namespace := "", Key := key, Val := val } : Attribute)]).filter
            (fun a => decide (a.Key ≠ key)) = rest.filter (fun a => decide (a.Key ≠ key)) := by
          simp
        have hgoal : setAttrList key val (b :: rest) =
            b :: (rest ++ [{ Namespace := "", Key := key, Val := val }]) := by
          simp [setAttrList, setAttrLoop, hk, hloop]
        rw [hgoal, List.filter_cons, List.filter_cons, ih']
      | some rest' =>
        have ih' : rest'.filter (fun a => decide (a.Key ≠ key)) =
            rest.filter (fun a => decide (a.Key ≠ key)) := by
          simpa [setAttrList, hloop] using ih
        have hgoal : setAttrList key val (b :: rest) = b :: rest' := by
          simp [setAttrList, setAttrLoop, hk, hloop]
        rw [hgoal, List.filter_cons, List.filter_cons, ih']

theorem setAttrList_length (key val : String) (attrs : List Attribute)
    (hex : ∃ b ∈ attrs, b.Key = key) :
    (setAttrList key val attrs).length = attrs.length := by
  induction attrs with
  | nil => simp at hex
  | cons b rest ih =>
    by_cases hk : b.Key = key
    · simp [setAttrList, setAttrLoop, hk]
    · have hrest : ∃ c ∈ rest, c.Key = key := by
        obtain ⟨c, hc, hck⟩ := hex
        rcases List.mem_cons.mp hc with rfl | hc'
        · exact absurd hck hk
        · exact ⟨c, hc', hck⟩
      cases hloop : setAttrLoop key val rest with
      | none =>
        obtain ⟨c, hc, hck⟩ := hrest
        have hsome : setAttrLoop key val rest ≠ none := by
          intro hnone
          have hlen := ih ⟨c, hc, hck⟩
          simp [setAttrList, hnone] at hlen
        exact absurd hloop hsome
      | some rest' =>
        have ih' : rest'.length = rest.length := by
          simpa [setAttrList, hloop] using ih hrest
        simp [setAttrList, setAttrLoop, hk, hloop, ih']

theorem attrLoop_set_fst (h : Heap) (key val : String) (nodes : List Addr) :
    (attrLoop h [key, val] nodes).1 = "" := by
  induction nodes with
  | nil => rfl
  | cons n rest ih =>
    by_cases hn : (h n).Type_ = NodeType.ElementNode
    · simp [attrLoop, hn]
    · simp [attrLoop, hn, ih]

theorem attrLoop_set_none (h : Heap) (key val : String) (nodes : List Addr)
    (hno : firstElement h nodes = none) : (attrLoop h [key, val] nodes).2 = h := by
  induction nodes with
  | nil => rfl
  | cons n rest ih =>
    by_cases hn : (h n).Type_ = NodeType.ElementNode
    · simp [firstElement, List.find?, hn] at hno
    · have hrest : firstElement h rest = none := by
        simpa [firstElement, List.find?, hn] using hno
      simp [attrLoop, hn, ih hrest]

theorem setValLoop_none (h : Heap) (val : String) (nodes : List Addr)
    (hno : firstValueNode h nodes = none) : setValLoop h val nodes = h := by
  induction nodes with
  | nil => rfl
  | cons n rest ih =>
    have hiff := isValueNode_iff (h n)
    by_cases hn : isValueNode (h n) = true
    · have hd := hiff.symm.trans hn
      simp [firstValueNode, List.find?, hd] at hno
    · have hn' : isValueNode (h n) = false := by simpa using hn
      have hd := hiff.symm.trans hn'
      have hrest : firstValueNode h rest = none := by
        simpa [firstValueNode, List.find?, hd] using hno
      simp [setValLoop, hn', ih hrest]

theorem setValLoop_some (h : Heap) (val : String) (nodes : List Addr) (n : Addr)
    (hn : firstValueNode h nodes = some n) :
    setValLoop h val nodes = setAttr h n "value" val := by
  induction nodes with
  | nil => simp [firstValueNode] at hn
  | cons m rest ih =>
    have hiff := isValueNode_iff (h m)
    by_cases hm : isValueNode (h m) = true
    · have hd := hiff.symm.trans hm
      have hmn : m = n := by simpa [firstValueNode, List.find?, hd] using hn
      subst hmn
      simp [setValLoop, hm]
    · have hm' : isValueNode (h m) = false := by simpa using hm
      have hd := hiff.symm.trans hm'
      have hrest : firstValueNode h rest = some n := by
        simpa [firstValueNode, List.find?, hd] using hn
      simp [setValLoop, hm', ih hrest]

/-! ## Val and the first node of the set -/

/-- C17: on the set `li value="3"`, `input value="x"` the call `Val()` returns
`x`, not the `value` attribute `3` of the node at position 0, and `Val("y")`
leaves the `value` attribute of that node at `3`; on the set holding the `li`
alone `Val()` returns the empty string. -/
theorem Val_skips_first_node :
    getAttr listHeap 0 "value" = "3" ∧
    (HtmlQ.Val listHeap { nodes := [0, 1] } []).1 = "x" ∧
    (HtmlQ.Val listHeap { nodes := [0, 1] } []).1 ≠ getAttr listHeap 0 "value" ∧
    getAttr (HtmlQ.Val listHeap { nodes := [0, 1] } ["y"]).2 0 "value" ≠ "y" ∧
    (HtmlQ.Val listHeap { nodes := [0] } []).1 ≠ getAttr listHeap 0 "value" ∧
    getAttr (HtmlQ.Val listHeap { nodes := [0] } ["y"]).2 0 "value" = "3" := by
  decide

/-! ## The slice memory: lemmas -/

theorem readFrom_congr (c c' : Nat → Addr) (i k : Nat)
    (hc : ∀ j, i ≤ j → j < i + k → c j = c' j) : readFrom c i k = readFrom c' i k := by
  induction k generalizing i with
  | zero => rfl
  | succ k ih =>
    have hhead : c i = c' i := hc i (Nat.le_refl _) (by omega)
    have htail := ih (i + 1) (fun j h1 h2 => hc j (by omega) (by omega))
    simp [readFrom, hhead, htail]

theorem readFrom_succ (c : Nat → Addr) (i k : Nat) :
    readFrom c i (k + 1) = readFrom c i k ++ [c (i + k)] := by
  induction k generalizing i with
  | zero => simp [readFrom]
  | succ k ih =>
    have hstep : readFrom c i (k + 1 + 1) = c i :: readFrom c (i + 1) (k + 1) := rfl
    have hidx : i + 1 + k = i + (k + 1) := by omega
    rw [hstep, ih (i + 1), hidx]
    simp [readFrom]

theorem readFrom_length (c : Nat → Addr) (i k : Nat) : (readFrom c i k).length = k := by
  induction k generalizing i with
  | zero => rfl
  | succ k ih => simp [readFrom, ih]

theorem readFrom_getElem? (c : Nat → Addr) (i k j : Nat) (hj : j < k) :
    (readFrom c i k)[j]? = some (c (i + j)) := by
  induction k generalizing i j with
  | zero => omega
  | succ k ih =>
    cases j with
    | zero => simp [readFrom]
    | succ j =>
      have hidx : i + 1 + j = i + (j + 1) := by omega
      simp [readFrom, ih (i + 1) j (by omega), hidx]

theorem appendSlice_spec (grow : Nat → Nat) (m0 m : Mem) (ws : Slice) (x : Addr)
    (hinv : FrameInv m0 m ws) :
    FrameInv m0 (appendSlice grow m ws x).1 (appendSlice grow m ws x).2 ∧
    (appendSlice grow m ws x).1.read (appendSlice grow m ws x).2 = m.read ws ++ [x] := by
  obtain ⟨hnext, hold, hlen, hfresh⟩ := hinv
  by_cases hlt : ws.len < ws.cap
  · have harr : m0.next ≤ ws.arr ∧ ws.arr < m.next := by
      rcases hfresh with h0 | h1
      · omega
      · exact h1
    simp only [appendSlice, hlt, if_true]
    refine ⟨⟨hnext, ?_, ?_, Or.inr harr⟩, ?_⟩
    · intro a ha
      have hne : a ≠ ws.arr := by omega
      simp only [Function.update_noteq hne]
      exact hold a ha
    · show ws.len + 1 ≤ ws.cap
      omega
    · simp only [Mem.read, Function.update_same]
      rw [readFrom_succ]
      have hsame : readFrom (Function.update (m.cells ws.arr) ws.len x) 0 ws.len =
          readFrom (m.cells ws.arr) 0 ws.len :=
        readFrom_congr _ _ 0 ws.len (fun j _ hj => by
          have hne : j ≠ ws.len := by omega
          simp [Function.update_noteq hne])
      rw [hsame, Nat.zero_add, Function.update_same]
  · simp only [appendSlice, hlt, if_false]
    refine ⟨⟨by show m0.next ≤ m.next + 1; omega, ?_, ?_, ?_⟩, ?_⟩
    · intro a ha
      have hne : a ≠ m.next := by omega
      simp only [Function.update_noteq hne]
      exact hold a ha
    · show ws.len + 1 ≤ ws.len + 1 + grow ws.cap
      omega
    · right
      show m0.next ≤ m.next ∧ m.next < m.next + 1
      omega
    · simp only [Mem.read, Function.update_same]
      rw [readFrom_succ]
      have hsame : readFrom (fun i => if i < ws.len then m.cells ws.arr i else x) 0 ws.len =
          readFrom (m.cells ws.arr) 0 ws.len :=
        readFrom_congr _ _ 0 ws.len (fun j _ hj => by
          have hj' : j < ws.len := by omega
          simp [hj'])
      rw [hsame, Nat.zero_add]
      simp

theorem addNewNodesMem_spec (grow : Nat → Nat) (m0 m : Mem) (ws : Slice) (newNodes : List Addr)
    (hinv : FrameInv m0 m ws) :
    FrameInv m0 (addNewNodesMem grow m ws newNodes).1 (addNewNodesMem grow m ws newNodes).2 ∧
    (addNewNodesMem grow m ws newNodes).1.read (addNewNodesMem grow m ws newNodes).2 =
      addNewNodes (m.read ws) newNodes := by
  induction newNodes generalizing m ws with
  | nil => exact ⟨hinv, rfl⟩
  | cons x rest ih =>
    by_cases hin : alreadyInSet x (m.read ws) = true
    · simpa [addNewNodesMem, addNewNodes, hin] using ih m ws hinv
    · obtain ⟨hinv', hread⟩ := appendSlice_spec grow m0 m ws x hinv
      have hstep := ih (appendSlice grow m ws x).1 (appendSlice grow m ws x).2 hinv'
      rw [hread] at hstep
      simpa [addNewNodesMem, addNewNodes, hin] using hstep

theorem findLoopMem_spec (grow : Nat → Nat) (s : Selector) (hq : Slice) (m0 : Mem)
    (halloc : hq.arr < m0.next) (k i : Nat) (m : Mem) (ws : Slice) (hinv : FrameInv m0 m ws) :
    FrameInv m0 (findLoopMem grow s hq k i m ws).1 (findLoopMem grow s hq k i m ws).2 ∧
    (findLoopMem grow s hq k i m ws).1.read (findLoopMem grow s hq k i m ws).2 =
      findLoop s (m.read ws) (readFrom (m0.cells hq.arr) i k) := by
  induction k generalizing i m ws with
  | zero => exact ⟨hinv, rfl⟩
  | succ k ih =>
    have hcell : m.cells hq.arr i = m0.cells hq.arr i := by
      rw [hinv.2.1 hq.arr halloc]
    obtain ⟨hinv', hread⟩ := addNewNodesMem_spec grow m0 m ws (s (m.cells hq.arr i)) hinv
    have hstep := ih (i + 1) _ _ hinv'
    rw [hread, hcell] at hstep
    simpa [findLoopMem, findLoop, readFrom, hcell] using hstep

theorem FrameInv_start (m : Mem) : FrameInv m m emptySlice :=
  ⟨Nat.le_refl _, fun _ _ => rfl, Nat.le_refl _, Or.inl rfl⟩

/-! ## Find and Index leave the receiver as it was -/

/-- C15: for an index `i` with `0 ≤ i < Len`, `Index` returns a node set of
length 1 whose only node is the `i`-th node of the receiver, and the receiver
reads the same node list after the call as before it (the result lives in a
new array, the arrays that existed are untouched). -/
theorem Index_in_range (m : Mem) (hq : Slice) (i : Nat) (hi : i < hq.len)
    (halloc : hq.arr < m.next) :
    ∃ (m' : Mem) (r : Slice) (node : Addr),
      IndexMem m hq (i : Int) = .ok (m', r) ∧
      (m.read hq)[i]? = some node ∧
      m'.read r = [node] ∧
      HtmlQ.Index { nodes := m.read hq } (i : Int) = .ok { nodes := [node] } ∧
      HtmlQ.Len { nodes := m'.read r } = 1 ∧
      m'.read hq = m.read hq ∧
      (∀ a, a < m.next → m'.cells a = m.cells a) := by
  have hnot : ¬ ((hq.len : Int) ≤ (i : Int)) := by omega
  have hneg : ¬ ((i : Int) < 0) := by omega
  have hget : (m.read hq)[i]? = some (m.cells hq.arr i) := by
    have h := readFrom_getElem? (m.cells hq.arr) 0 hq.len i hi
    simpa [Mem.read] using h
  have hold : ∀ a, a < m.next → (literalOne m (m.cells hq.arr i)).1.cells a = m.cells a := by
    intro a ha
    have hne : a ≠ m.next := by omega
    simp [literalOne, Function.update_noteq hne]
  refine ⟨(literalOne m (m.cells hq.arr i)).1, (literalOne m (m.cells hq.arr i)).2,
    m.cells hq.arr i, ?_, hget, ?_, ?_, ?_, ?_, hold⟩
  · simp [IndexMem, hnot, hneg]
  · simp [literalOne, Mem.read, readFrom]
  · have hlen : (m.read hq).length = hq.len := readFrom_length _ _ _
    have hnot' : ¬ (((m.read hq).length : Int) ≤ (i : Int)) := by omega
    simp only [HtmlQ.Index, hnot', if_false, sliceIndex_ok (m.read hq) i _ hget]
  · simp [literalOne, Mem.read, readFrom, HtmlQ.Len]
  · simp only [Mem.read]
    rw [hold hq.arr halloc]

/-- Witness of C15: index 1 of the receiver `[0, 1, 0]`. -/
theorem Index_in_range_witness :
    ∃ (m' : Mem) (r : Slice),
      IndexMem sampleMem sampleSlice 1 = .ok (m', r) ∧ m'.read r = [1] ∧
      m'.read sampleSlice = [0, 1, 0] := by
  obtain ⟨m', r, node, hrun, hget, hres, _, _, hkeep, _⟩ :=
    Index_in_range sampleMem sampleSlice 1 (by decide) (by decide)
  have hnode : node = 1 := by
    have hval : (sampleMem.read sampleSlice)[1]? = some 1 := by decide
    rw [hval] at hget
    exact (Option.some.inj hget).symm
  subst hnode
  exact ⟨m', r, hrun, hres, hkeep.trans (by decide)⟩

/-- C16: when the selector compiles, `Find` returns, and the receiver reads the
same node list, in the same order, after the call as before it: every array
that existed at the call holds what it held; the returned slice holds what
`Find` computes from the node list of the receiver. -/
theorem Find_keeps_receiver (compile : Compiler) (sm : Selector) (grow : Nat → Nat) (m : Mem)
    (hq : Slice) (sel : String) (hc : compile sel = .ok sm)
    (halloc : hq.len = 0 ∨ hq.arr < m.next) :
    ∃ (m' : Mem) (r : Slice),
      FindMem compile grow m hq sel = .ok (m', r) ∧
      m'.read hq = m.read hq ∧
      (∀ a, a < m.next → m'.cells a = m.cells a) ∧
      HtmlQ.Find compile { nodes := m.read hq } sel = .ok { nodes := m'.read r } := by
  refine ⟨(findLoopMem grow sm hq hq.len 0 m emptySlice).1,
    (findLoopMem grow sm hq hq.len 0 m emptySlice).2, ?_, ?_, ?_, ?_⟩
  · simp [FindMem, hc]
  · rcases halloc with hzero | hlt
    · simp [Mem.read, hzero, readFrom]
    · obtain ⟨hinv, _⟩ := findLoopMem_spec grow sm hq m hlt hq.len 0 m emptySlice (FrameInv_start m)
      simp only [Mem.read]
      rw [hinv.2.1 hq.arr hlt]
  · rcases halloc with hzero | hlt
    · intro a _
      simp [hzero, findLoopMem]
    · obtain ⟨hinv, _⟩ := findLoopMem_spec grow sm hq m hlt hq.len 0 m emptySlice (FrameInv_start m)
      exact hinv.2.1
  · rcases halloc with hzero | hlt
    · simp [HtmlQ.Find, hc, Mem.read, hzero, readFrom, findLoopMem, findLoop, emptySlice]
    · obtain ⟨_, hread⟩ := findLoopMem_spec grow sm hq m hlt hq.len 0 m emptySlice (FrameInv_start m)
      have hstart : m.read emptySlice = [] := rfl
      rw [hstart] at hread
      rw [hread]
      simp [HtmlQ.Find, hc, Mem.read]

/-- Witness of C16: the receiver `[0, 1, 0]` with the overlapping matcher still
reads `[0, 1, 0]` after `Find` has returned `[1, 2, 3]`. -/
theorem Find_keeps_receiver_witness :
    ∃ (m' : Mem) (r : Slice),
      FindMem sampleCompile (fun c => c) sampleMem sampleSlice "p" = .ok (m', r) ∧
      m'.read sampleSlice = [0, 1, 0] ∧ m'.read r = [1, 2, 3] := by
  obtain ⟨m', r, hrun, hkeep, _, hfind⟩ :=
    Find_keeps_receiver sampleCompile overlapMatcher (fun c => c) sampleMem sampleSlice "p"
      (by simp [sampleCompile]) (Or.inr (by decide))
  have hlist : HtmlQ.Find sampleCompile { nodes := sampleMem.read sampleSlice } "p" =
      .ok { nodes := [1, 2, 3] } := by decide
  rw [hlist] at hfind
  have hres : m'.read r = [1, 2, 3] := by
    have h1 := Except.ok.inj hfind
    exact (congrArg HtmlQ.nodes h1).symm
  exact ⟨m', r, hrun, hkeep.trans (by decide), hres⟩

/-! ## Text renders markup -/

/-- C18: on the `body` of the document of `Test1`, whose descendant text nodes
hold `102`, `Hello`, `103`, `There`, `Text` returns the markup of the children
of `body`, tags included, and not the concatenated text. -/
theorem Text_renders_markup :
    descendantText testDocument 16 4 = "102Hello103There" ∧
    HtmlQ.Text tagRender testDocument 4 { nodes := [4] } [] =
      .ok ("<span class=\"post-id\">102</span><div class=\"msg\">Hello</div>" ++
           "<span class=\"post-id\">103</span><div class=\"msg\">There</div>") ∧
    HtmlQ.Text tagRender testDocument 4 { nodes := [4] } [] ≠
      .ok (descendantText testDocument 16 4) ∧
    HtmlQ.Text tagRender testDocument 4 { nodes := [5] } [] =
      .ok (descendantText testDocument 16 5) := by
  decide

/-! ## The attribute arrays: lemmas -/

theorem attrsFrom_shift (c c' : Nat → Attribute) (i i' k : Nat)
    (hc : ∀ j, j < k → c (i + j) = c' (i' + j)) : attrsFrom c i k = attrsFrom c' i' k := by
  induction k generalizing i i' with
  | zero => rfl
  | succ k ih =>
    have hhead : c i = c' i' := by simpa using hc 0 (Nat.succ_pos _)
    have htail : attrsFrom c (i + 1) k = attrsFrom c' (i' + 1) k :=
      ih (i + 1) (i' + 1) (fun j hj => by
        have h := hc (j + 1) (by omega)
        have e1 : i + 1 + j = i + (j + 1) := by omega
        have e2 : i' + 1 + j = i' + (j + 1) := by omega
        rw [e1, e2]
        exact h)
    simp [attrsFrom, hhead, htail]

theorem attrsFrom_succ (c : Nat → Attribute) (i k : Nat) :
    attrsFrom c i (k + 1) = attrsFrom c i k ++ [c (i + k)] := by
  induction k generalizing i with
  | zero => simp [attrsFrom]
  | succ k ih =>
    have hstep : attrsFrom c i (k + 1 + 1) = c i :: attrsFrom c (i + 1) (k + 1) := rfl
    have hidx : i + 1 + k = i + (k + 1) := by omega
    rw [hstep, ih (i + 1), hidx]
    simp [attrsFrom]

theorem findKey_none (cells : Nat → Attribute) (key val : String) (i k : Nat)
    (hfind : findKey cells key i k = none) :
    setAttrLoop key val (attrsFrom cells i k) = none := by
  induction k generalizing i with
  | zero => rfl
  | succ k ih =>
    by_cases hk : (cells i).Key = key
    · simp [findKey, hk] at hfind
    · have hrest : findKey cells key (i + 1) k = none := by
        simpa [findKey, hk] using hfind
      simp [attrsFrom, setAttrLoop, hk, ih (i + 1) hrest]

theorem findKey_some (cells : Nat → Attribute) (key val : String) (i k j : Nat)
    (hfind : findKey cells key i k = some j) :
    i ≤ j ∧ setAttrLoop key val (attrsFrom cells i k) =
      some (attrsFrom (Function.update cells j { (cells j) with Val := val }) i k) := by
  induction k generalizing i with
  | zero => simp [findKey] at hfind
  | succ k ih =>
    by_cases hk : (cells i).Key = key
    · have hij : i = j := by simpa [findKey, hk] using hfind
      subst hij
      refine ⟨Nat.le_refl _, ?_⟩
      have htail : ∀ x : Attribute, attrsFrom (Function.update cells i x) (i + 1) k =
          attrsFrom cells (i + 1) k :=
        fun x => attrsFrom_shift _ _ (i + 1) (i + 1) k (fun m _ => by
          have hne : i + 1 + m ≠ i := by omega
          simp [Function.update_noteq hne])
      simp [attrsFrom, setAttrLoop, hk, htail]
    · have hrest : findKey cells key (i + 1) k = some j := by
        simpa [findKey, hk] using hfind
      obtain ⟨hle, hloop⟩ := ih (i + 1) hrest
      refine ⟨by omega, ?_⟩
      have hne : i ≠ j := by omega
      simp [attrsFrom, setAttrLoop, hk, hloop, Function.update_noteq hne]

theorem setAttrMem_attrs (grow : Nat → Nat) (t : TreeMem) (n : Addr) (key val : String) :
    (setAttrMem grow t n key val).attrs n = setAttrList key val (t.attrs n) := by
  cases hfind : findKey (t.cells (t.node n).Attr.arr) key (t.node n).Attr.off
      (t.node n).Attr.len with
  | some j =>
    obtain ⟨_, hloop⟩ := findKey_some _ key val _ _ j hfind
    simp only [setAttrMem, hfind, TreeMem.attrs, setAttrList, hloop, Function.update_same]
  | none =>
    have hloop := findKey_none _ key val _ _ hfind
    by_cases hcap : (t.node n).Attr.len < (t.node n).Attr.cap
    · simp only [setAttrMem, hfind, hcap, if_true, TreeMem.attrs, setAttrList, hloop,
        Function.update_same]
      rw [attrsFrom_succ, Function.update_same]
      have hsame : attrsFrom (Function.update (t.cells (t.node n).Attr.arr)
            ((t.node n).Attr.off + (t.node n).Attr.len)
            { Namespace := "", Key := key, Val := val })
          (t.node n).Attr.off (t.node n).Attr.len =
          attrsFrom (t.cells (t.node n).Attr.arr) (t.node n).Attr.off (t.node n).Attr.len :=
        attrsFrom_shift _ _ _ _ _ (fun m hm => by
          have hne : (t.node n).Attr.off + m ≠ (t.node n).Attr.off + (t.node n).Attr.len := by
            omega
          simp [Function.update_noteq hne])
      rw [hsame]
    · simp only [setAttrMem, hfind, hcap, if_false, TreeMem.attrs, setAttrList, hloop,
        Function.update_same]
      rw [attrsFrom_succ]
      have hsame : attrsFrom (fun j => if j < (t.node n).Attr.len
            then t.cells (t.node n).Attr.arr ((t.node n).Attr.off + j)
            else ({ Namespace := "", Key := key, Val := val } : Attribute))
          0 (t.node n).Attr.len =
          attrsFrom (t.cells (t.node n).Attr.arr) (t.node n).Attr.off (t.node n).Attr.len :=
        attrsFrom_shift _ _ _ _ _ (fun m hm => by simp [hm])
      rw [hsame]
      simp

theorem setAttrMem_node_other (grow : Nat → Nat) (t : TreeMem) (n a : Addr) (key val : String)
    (hne : a ≠ n) : (setAttrMem grow t n key val).node a = t.node a := by
  cases hfind : findKey (t.cells (t.node n).Attr.arr) key (t.node n).Attr.off
      (t.node n).Attr.len with
  | some j => simp only [setAttrMem, hfind]
  | none =>
    by_cases hcap : (t.node n).Attr.len < (t.node n).Attr.cap
    · simp only [setAttrMem, hfind, hcap, if_true, Function.update_noteq hne]
    · simp only [setAttrMem, hfind, hcap, if_false, Function.update_noteq hne]

theorem setAttrMem_fields (grow : Nat → Nat) (t : TreeMem) (n a : Addr) (key val : String) :
    ((setAttrMem grow t n key val).node a).Type_ = (t.node a).Type_ ∧
    ((setAttrMem grow t n key val).node a).Data = (t.node a).Data ∧
    ((setAttrMem grow t n key val).node a).FirstChild = (t.node a).FirstChild ∧
    ((setAttrMem grow t n key val).node a).NextSibling = (t.node a).NextSibling := by
  by_cases hne : a = n
  · subst hne
    cases hfind : findKey (t.cells (t.node a).Attr.arr) key (t.node a).Attr.off
        (t.node a).Attr.len with
    | some j => simp only [setAttrMem, hfind, and_self]
    | none =>
      by_cases hcap : (t.node a).Attr.len < (t.node a).Attr.cap
      · simp only [setAttrMem, hfind, hcap, if_true, Function.update_same, and_self]
      · simp only [setAttrMem, hfind, hcap, if_false, Function.update_same, and_self]
  · rw [setAttrMem_node_other grow t n a key val hne]
    exact ⟨rfl, rfl, rfl, rfl⟩

theorem setAttrMem_attrs_other (grow : Nat → Nat) (t : TreeMem) (n a : Addr) (key val : String)
    (hne : a ≠ n) (hsep : Separate t n a) :
    (setAttrMem grow t n key val).attrs a = t.attrs a := by
  have hnode := setAttrMem_node_other grow t n a key val hne
  simp only [TreeMem.attrs, hnode]
  rcases hsep with hzero | ⟨harr, halloc⟩
  · simp [hzero, attrsFrom]
  · have hnext : (t.node a).Attr.arr ≠ t.next := by omega
    cases hfind : findKey (t.cells (t.node n).Attr.arr) key (t.node n).Attr.off
        (t.node n).Attr.len with
    | some j => simp only [setAttrMem, hfind, Function.update_noteq harr]
    | none =>
      by_cases hcap : (t.node n).Attr.len < (t.node n).Attr.cap
      · simp only [setAttrMem, hfind, hcap, if_true, Function.update_noteq harr]
      · simp only [setAttrMem, hfind, hcap, if_false, Function.update_noteq hnext]

theorem setAttrMem_heap_target (grow : Nat → Nat) (t : TreeMem) (n : Addr) (key val : String) :
    (setAttrMem grow t n key val).heap n = setAttr t.heap n key val n := by
  obtain ⟨h1, h2, h3, h4⟩ := setAttrMem_fields grow t n n key val
  rw [setAttr_same]
  simp only [TreeMem.heap, h1, h2, h3, h4, setAttrMem_attrs]

theorem setAttrMem_heap_other (grow : Nat → Nat) (t : TreeMem) (n a : Addr) (key val : String)
    (hne : a ≠ n) (hsep : Separate t n a) :
    (setAttrMem grow t n key val).heap a = t.heap a := by
  simp only [TreeMem.heap, setAttrMem_node_other grow t n a key val hne,
    setAttrMem_attrs_other grow t n a key val hne hsep]

theorem attrLoopMem_set_fst (grow : Nat → Nat) (t : TreeMem) (key val : String)
    (nodes : List Addr) : (attrLoopMem grow t [key, val] nodes).1 = "" := by
  induction nodes with
  | nil => rfl
  | cons n rest ih =>
    by_cases hn : (t.node n).Type_ = NodeType.ElementNode
    · simp [attrLoopMem, hn]
    · simp [attrLoopMem, hn, ih]

theorem attrLoopMem_set_none (grow : Nat → Nat) (t : TreeMem) (key val : String)
    (nodes : List Addr) (hno : firstElement t.heap nodes = none) :
    (attrLoopMem grow t [key, val] nodes).2 = t := by
  induction nodes with
  | nil => rfl
  | cons n rest ih =>
    by_cases hn : (t.node n).Type_ = NodeType.ElementNode
    · simp [firstElement, List.find?, TreeMem.heap, hn] at hno
    · have hrest : firstElement t.heap rest = none := by
        simpa [firstElement, List.find?, TreeMem.heap, hn] using hno
      simp [attrLoopMem, hn, ih hrest]

theorem attrLoopMem_set_some (grow : Nat → Nat) (t : TreeMem) (key val : String)
    (nodes : List Addr) (n : Addr) (hn : firstElement t.heap nodes = some n) :
    (attrLoopMem grow t [key, val] nodes).2 = setAttrMem grow t n key val := by
  induction nodes with
  | nil => simp [firstElement] at hn
  | cons m rest ih =>
    by_cases hm : (t.node m).Type_ = NodeType.ElementNode
    · have hmn : m = n := by simpa [firstElement, List.find?, TreeMem.heap, hm] using hn
      subst hmn
      simp [attrLoopMem, hm]
    · have hrest : firstElement t.heap rest = some n := by
        simpa [firstElement, List.find?, TreeMem.heap, hm] using hn
      simp [attrLoopMem, hm, ih hrest]

theorem setValLoopMem_none (grow : Nat → Nat) (t : TreeMem) (val : String) (nodes : List Addr)
    (hno : firstValueNode t.heap nodes = none) : setValLoopMem grow t val nodes = t := by
  induction nodes with
  | nil => rfl
  | cons n rest ih =>
    have hiff := isValueNode_iff (t.heap n)
    by_cases hn : isValueNode (t.heap n) = true
    · have hd := hiff.symm.trans hn
      simp [firstValueNode, List.find?, hd] at hno
    · have hn' : isValueNode (t.heap n) = false := by simpa using hn
      have hd := hiff.symm.trans hn'
      have hrest : firstValueNode t.heap rest = none := by
        simpa [firstValueNode, List.find?, hd] using hno
      simp [setValLoopMem, hn', ih hrest]

theorem setValLoopMem_some (grow : Nat → Nat) (t : TreeMem) (val : String) (nodes : List Addr)
    (n : Addr) (hn : firstValueNode t.heap nodes = some n) :
    setValLoopMem grow t val nodes = setAttrMem grow t n "value" val := by
  induction nodes with
  | nil => simp [firstValueNode] at hn
  | cons m rest ih =>
    have hiff := isValueNode_iff (t.heap m)
    by_cases hm : isValueNode (t.heap m) = true
    · have hd := hiff.symm.trans hm
      have hmn : m = n := by simpa [firstValueNode, List.find?, hd] using hn
      subst hmn
      simp [setValLoopMem, hm]
    · have hm' : isValueNode (t.heap m) = false := by simpa using hm
      have hd := hiff.symm.trans hm'
      have hrest : firstValueNode t.heap rest = some n := by
        simpa [firstValueNode, List.find?, hd] using hn
      simp [setValLoopMem, hm', ih hrest]

/-! ## Attr: what a write leaves alone -/

/-- Counterexample to C13: the nodes 1 and 0 share the attribute array
`[a=1, z=9]`, the node 1 reading its first cell only.  `Attr("b", "2")` on the
set `[1, 0]` writes through the first element node, the node 1, by appending
into the spare cell of the array, and the attribute list of the other node,
the node 0, turns from `[a=1, z=9]` into `[a=1, b=2]`. -/
theorem Attr_set_shared_counterexample :
    firstElement sharedTree.heap [1, 0] = some 1 ∧
    sharedTree.attrs 0 =
      [{ Namespace := "", Key := "a", Val := "1" }, { Namespace := "", Key := "z", Val := "9" }] ∧
    ∃ t' : TreeMem,
      AttrMem (fun c => c) sharedTree { nodes := [1, 0] } ["b", "2"] = .ok ("", t') ∧
      t'.attrs 0 =
        [{ Namespace := "", Key := "a", Val := "1" }, { Namespace := "", Key := "b", Val := "2" }] ∧
      t'.attrs 0 ≠ sharedTree.attrs 0 :=
  ⟨by decide, by decide,
   (attrLoopMem (fun c => c) sharedTree ["b", "2"] [1, 0]).2, rfl, by decide, by decide⟩

/-- C13, amended: `S.Attr(k, v)` returns normally; when `S` has no element node
the tree memory is unchanged; otherwise the write goes through the attribute
slice of the first element node `n` of `S` only: every other node whose
attribute slice is empty or lies in another array than the slice of `n` is
unchanged, every node keeps its kind, tag and links, and on `n` the attributes
whose key differs from `k` are the same, in the same order; `n` itself reads
what `setAttr` computes from its attribute list, and when no slice shares the
array of `n` the whole tree is the one of the list-level `Attr`. -/
theorem Attr_set_frame (grow : Nat → Nat) (t : TreeMem) (S : HtmlQ) (k v : String) :
    ∃ t' : TreeMem, AttrMem grow t S [k, v] = .ok ("", t') ∧
      (firstElement t.heap S.nodes = none → t' = t) ∧
      (∀ n, firstElement t.heap S.nodes = some n →
        (∀ a, a ≠ n → Separate t n a → t'.heap a = t.heap a) ∧
        (∀ a, (t'.heap a).Type_ = (t.heap a).Type_ ∧ (t'.heap a).Data = (t.heap a).Data ∧
          (t'.heap a).FirstChild = (t.heap a).FirstChild ∧
          (t'.heap a).NextSibling = (t.heap a).NextSibling) ∧
        (t'.heap n).Attr.filter (fun a => decide (a.Key ≠ k)) =
          (t.heap n).Attr.filter (fun a => decide (a.Key ≠ k)) ∧
        t'.heap n = setAttr t.heap n k v n ∧
        ((∀ a, a ≠ n → Separate t n a) → t'.heap = (attrLoop t.heap [k, v] S.nodes).2)) := by
  refine ⟨(attrLoopMem grow t [k, v] S.nodes).2, ?_, ?_, ?_⟩
  · have hfst := attrLoopMem_set_fst grow t k v S.nodes
    simp only [AttrMem]
    rw [← hfst]
    simp
  · exact attrLoopMem_set_none grow t k v S.nodes
  · intro n hn
    rw [attrLoopMem_set_some grow t k v S.nodes n hn]
    refine ⟨fun a ha hsep => setAttrMem_heap_other grow t n a k v ha hsep,
      fun a => setAttrMem_fields grow t n a k v, ?_, setAttrMem_heap_target grow t n k v, ?_⟩
    · rw [setAttrMem_heap_target, setAttr_same]
      exact setAttrList_filter k v (t.heap n).Attr
    · intro hall
      rw [attrLoop_set_eq t.heap k v S.nodes n hn]
      funext a
      by_cases ha : a = n
      · subst ha
        exact setAttrMem_heap_target grow t a k v
      · rw [setAttrMem_heap_other grow t n a k v ha (hall a ha), setAttr_other _ _ _ _ _ ha]

/-- Instance of the amended C13: in the form fragment, where every element has
an attribute array of its own, writing `id` on the set text, `div`, `input`
gives the `div` the new value and leaves the `input` as it was. -/
theorem Attr_set_frame_witness :
    ∃ t' : TreeMem,
      AttrMem (fun c => c) formTree { nodes := [0, 1, 2] } ["id", "main"] = .ok ("", t') ∧
      t'.heap 2 = formTree.heap 2 ∧
      (t'.heap 1).Attr = [{ Namespace := "", Key := "id", Val := "main" }] := by
  obtain ⟨t', hrun, _, hsome⟩ :=
    Attr_set_frame (fun c => c) formTree { nodes := [0, 1, 2] } "id" "main"
  obtain ⟨hother, _, _, htarget, _⟩ := hsome 1 (by decide)
  refine ⟨t', hrun, hother 2 (by decide) (by unfold Separate; decide), ?_⟩
  rw [htarget]
  decide

/-! ## Val: what a write leaves alone -/

/-- Counterexample to C14: the `input` nodes 1 and 0 share the attribute array
`[type=text, value=x]`, the node 1 reading its first cell only.  `Val("y")` on
the set `[1, 0]` writes through the first value-bearing node, the node 1, by
appending into the spare cell of the array, and the `value` of the other node,
the node 0, turns from `x` into `y`. -/
theorem Val_set_shared_counterexample :
    firstValueNode sharedForm.heap [1, 0] = some 1 ∧
    sharedForm.attrs 0 =
      [{ Namespace := "", Key := "type", Val := "text" },
       { Namespace := "", Key := "value", Val := "x" }] ∧
    (ValMem (fun c => c) sharedForm { nodes := [1, 0] } ["y"]).2.attrs 0 =
      [{ Namespace := "", Key := "type", Val := "text" },
       { Namespace := "", Key := "value", Val := "y" }] ∧
    (ValMem (fun c => c) sharedForm { nodes := [1, 0] } ["y"]).2.attrs 0 ≠
      sharedForm.attrs 0 := by
  decide

/-- C14, amended: when `S` has no value-bearing node `S.Val(v)` leaves the tree
memory unchanged; otherwise the write goes through the attribute slice of the
first value-bearing node `n` of `S` only: every other node whose attribute
slice is empty or lies in another array than the slice of `n` is unchanged,
every node keeps its kind, tag and links, and on `n` the first attribute with
key `value`, if there is one, gets the value `v` in its place (the list keeps
its length), and if there is none the one attribute `("value", v)` is
appended; when no slice shares the array of `n` the whole tree is the one of
the list-level `Val`. -/
theorem Val_set_frame (grow : Nat → Nat) (t : TreeMem) (S : HtmlQ) (v : String) :
    (ValMem grow t S [v]).1 = "" ∧
    (firstValueNode t.heap S.nodes = none → (ValMem grow t S [v]).2 = t) ∧
    (∀ n, firstValueNode t.heap S.nodes = some n →
      (∀ a, a ≠ n → Separate t n a → (ValMem grow t S [v]).2.heap a = t.heap a) ∧
      (∀ a, ((ValMem grow t S [v]).2.heap a).Type_ = (t.heap a).Type_ ∧
        ((ValMem grow t S [v]).2.heap a).Data = (t.heap a).Data ∧
        ((ValMem grow t S [v]).2.heap a).FirstChild = (t.heap a).FirstChild ∧
        ((ValMem grow t S [v]).2.heap a).NextSibling = (t.heap a).NextSibling) ∧
      (∀ pre a post, (t.heap n).Attr = pre ++ a :: post → (∀ b ∈ pre, b.Key ≠ "value") →
        a.Key = "value" →
        ((ValMem grow t S [v]).2.heap n).Attr = pre ++ { a with Val := v } :: post) ∧
      ((∃ b ∈ (t.heap n).Attr, b.Key = "value") →
        ((ValMem grow t S [v]).2.heap n).Attr.length = (t.heap n).Attr.length) ∧
      ((∀ b ∈ (t.heap n).Attr, b.Key ≠ "value") →
        ((ValMem grow t S [v]).2.heap n).Attr =
          (t.heap n).Attr ++ [{ Namespace := "", Key := "value", Val := v }]) ∧
      (ValMem grow t S [v]).2.heap n = setAttr t.heap n "value" v n ∧
      ((∀ a, a ≠ n → Separate t n a) →
        (ValMem grow t S [v]).2.heap = (S.Val t.heap [v]).2)) := by
  refine ⟨rfl, ?_, ?_⟩
  · intro hno
    simpa [ValMem] using setValLoopMem_none grow t v S.nodes hno
  · intro n hn
    have hrun : (ValMem grow t S [v]).2 = setAttrMem grow t n "value" v := by
      simpa [ValMem] using setValLoopMem_some grow t v S.nodes n hn
    have htarget := setAttrMem_heap_target grow t n "value" v
    rw [hrun]
    refine ⟨fun a ha hsep => setAttrMem_heap_other grow t n a "value" v ha hsep,
      fun a => setAttrMem_fields grow t n a "value" v, ?_, ?_, ?_, htarget, ?_⟩
    · intro pre a post hsplit hpre ha
      rw [htarget, setAttr_same]
      simp only [setAttrList, hsplit, setAttrLoop_split "value" v pre post a hpre ha]
    · intro hex
      rw [htarget, setAttr_same]
      exact setAttrList_length "value" v (t.heap n).Attr hex
    · intro hno
      rw [htarget, setAttr_same]
      simp only [setAttrList, setAttrLoop_none "value" v (t.heap n).Attr hno]
    · intro hall
      have hlist : (S.Val t.heap [v]).2 = setAttr t.heap n "value" v := by
        simpa [HtmlQ.Val, HtmlQ.setVal] using setValLoop_some t.heap v S.nodes n hn
      rw [hlist]
      funext a
      by_cases ha : a = n
      · subst ha
        exact htarget
      · rw [setAttrMem_heap_other grow t n a "value" v ha (hall a ha),
          setAttr_other _ _ _ _ _ ha]

/-- Instances of the amended C14 on the form fragment, where every element has
an attribute array of its own: the `input` keeps two attributes and has the
new value while the `div` is as it was; the `textarea` gets the one attribute;
without a value-bearing node nothing changes. -/
theorem Val_set_frame_witness :
    ((ValMem (fun c => c) formTree { nodes := [0, 1, 2, 3] } ["y"]).2.heap 2).Attr =
      [{ Namespace := "", Key := "type", Val := "text" },
       { Namespace := "", Key := "value", Val := "y" }] ∧
    (ValMem (fun c => c) formTree { nodes := [0, 1, 2, 3] } ["y"]).2.heap 1 = formTree.heap 1 ∧
    ((ValMem (fun c => c) formTree { nodes := [3, 2] } ["y"]).2.heap 3).Attr =
      [{ Namespace := "", Key := "value", Val := "y" }] ∧
    (ValMem (fun c => c) formTree { nodes := [0, 1] } ["y"]).2 = formTree :=
  ⟨((Val_set_frame (fun c => c) formTree { nodes := [0, 1, 2, 3] } "y").2.2 2
      (by decide)).2.2.1
      [{ Namespace := "", Key := "type", Val := "text" }]
      { Namespace := "", Key := "value", Val := "x" } [] (by decide) (by decide) rfl,
   ((Val_set_frame (fun c => c) formTree { nodes := [0, 1, 2, 3] } "y").2.2 2
      (by decide)).1 1 (by decide) (by unfold Separate; decide),
   ((Val_set_frame (fun c => c) formTree { nodes := [3, 2] } "y").2.2 3
      (by decide)).2.2.2.2.1 (by decide),
   (Val_set_frame (fun c => c) formTree { nodes := [0, 1] } "y").2.1 (by decide)⟩

end Htmlq
